import Mathlib

set_option linter.dupNamespace false

/-!
# Vulcan: conversion, ingester and indexer

A shallow embedding of three Go source files of the Vulcan metrics pipeline:

* `convert/metric_timeseries.go`: a pure function over Go maps;
* `ingester/ingester.go`: a pool of competing consumers with a once-guarded
  cancellation;
* `indexer/indexer.go`: a dispatcher that fans every group out to a pool of
  long-lived workers and joins on a wait group.

The two concurrent programs are embedded as interleaving transition systems:
a state holds the shared variables and one program counter per goroutine, a
scheduler action picks the goroutine that moves (and the branch a `select`
takes, and the value an external call returns), and `step` executes the
statement at that program counter.  Everything is computable, so a schedule
can be replayed on a concrete input.
-/

namespace Vulcan

/-- A Go `error` value other than `nil`; the `nil` error is `Option.none`. -/
abbrev Err := String

/-- Sum of a weight over the goroutines of a pool: with a weight that is 0 or
1 it counts the goroutines at some program counter. -/
def wsum {α : Type} (f : α → Nat) (l : List α) : Nat :=
  (l.map f).sum

/-! ## Package `convert` -/

namespace convert

/-- Prometheus `model.LabelName`, a Go type whose underlying type is `string`. -/
structure LabelName where
  val : String
deriving DecidableEq, Repr

/-- Prometheus `model.LabelValue`, a Go type whose underlying type is `string`. -/
structure LabelValue where
  val : String
deriving DecidableEq, Repr

/-- A Go `map[K]V`: finitely many entries with pairwise distinct keys.  The
order of the entries stands for the order in which `range` happens to visit
them. -/
abbrev GoMap (K V : Type) := AList (fun _ : K => V)

/-- The statement `m[k] = v` on a Go map. -/
def GoMap.set {K V : Type} [DecidableEq K] (m : GoMap K V) (k : K) (v : V) : GoMap K V :=
  AList.insert k v m

/-- Prometheus `metric.Metric`; `Metric` is a `model.Metric`, that is a
`map[LabelName]LabelValue`. -/
structure Metric where
  Copied : Bool
  Metric : GoMap LabelName LabelValue

/-- Modelled from the spec: the type `model.Sample` of the repository is not
part of the sources at hand; a sample is a value with a timestamp. -/
structure Sample where
  TimestampMS : Int
  Value : Int
deriving DecidableEq, Repr

/-- Modelled from the spec: the type `model.TimeSeries` of the repository is
not part of the sources at hand; the function below fixes its two fields,
`Labels map[string]string` and `Samples []*model.Sample`. -/
structure TimeSeries where
  Labels : GoMap String String
  Samples : List Sample

/-- The Go conversions `string(k)` and `string(v)` applied to one map entry. -/
def convertEntry (e : Sigma (fun _ : LabelName => LabelValue)) : Sigma (fun _ : String => String) :=
  ⟨e.1.val, e.2.val⟩

/-- The loop `for k, v := range m.Metric { ts.Labels[string(k)] = string(v) }`
run over the entries in the order `range` yields them. -/
def rangeLoop (labels : GoMap String String) :
    List (Sigma (fun _ : LabelName => LabelValue)) → GoMap String String
  | [] => labels
  | e :: rest => rangeLoop (labels.set e.1.val e.2.val) rest

/-- The function `MetricToTimeSeries` of `convert/metric_timeseries.go`. -/
def MetricToTimeSeries (m : Metric) : TimeSeries :=
  let ts : TimeSeries := { Labels := ∅, Samples := [] }
  { ts with Labels := rangeLoop ts.Labels m.Metric.entries }

end convert

/-! ## Package `ingester` -/

namespace ingester

/-- Modelled from the spec: the type `bus.SourcePayload` of the repository is
not part of the sources at hand.  A payload carries one batch (opaque to the
pipeline, here a number) and is acknowledged with `Ack()`. -/
structure SourcePayload where
  TimeSeriesBatch : Nat
deriving DecidableEq, Repr

/-- Modelled from the spec: the interface `bus.Source` of the repository is
not part of the sources at hand.  A source delivers a finite sequence of
payloads on the channel `Messages()`, closes the channel after the last one,
and reports its terminal error with `Error()` (`none` is the `nil` error of a
graceful shutdown). -/
structure Source where
  Messages : List SourcePayload
  Error : Option Err
deriving Repr

/-- The value of a Go `int` converted to `int32`: the counter of a
`sync.WaitGroup` is the upper 32 bits of its state word, read as `int32`, so
`wg.Add(delta)` adds `delta` modulo `2^32`. -/
def int32Of (x : Int) : Int :=
  (x + 2147483648) % 4294967296 - 2147483648

/-- The struct `Ingester`.  The `Writer` is external: the value every `Write`
call returns is chosen by the scheduler action that performs the call.
`NumWorkers` is a Go `int` of any sign; `fits` keeps the pool below `2^32`
goroutines (more than a process can hold), the range in which the 32-bit
counter of the WaitGroup cannot wrap around while goroutines are running.
Counts from `2^31` on are covered: `wg.Add` panics on them. -/
structure Ingester where
  NumWorkers : Int
  Source : Source
  fits : NumWorkers < 4294967296

/-- Program counter of one call of `work` (lines 66-82). -/
inductive WorkPc where
  /-- At the `select` of line 68. -/
  | select
  /-- Holding `m` from `case m, ok := <-ch` with `ok`, about to call `w.Write` (line 75). -/
  | write (m : SourcePayload)
  /-- `Write` returned `nil`, about to call `m.Ack()` (line 79). -/
  | ack (m : SourcePayload)
  /-- The call of `work` has returned `err` (lines 70, 73, 77). -/
  | ret (err : Option Err)
deriving DecidableEq, Repr

/-- What the environment hands to `work` at its current statement. -/
inductive WorkEvent where
  /-- The `select` takes `case <-done` (line 69). -/
  | done
  /-- The `select` takes `case m, ok := <-ch` and receives `m` (line 71). -/
  | recv (m : SourcePayload)
  /-- The `select` takes `case m, ok := <-ch` on the closed channel, `ok` is false (line 72). -/
  | closed
  /-- The call `w.Write(m.TimeSeriesBatch)` returns `err` (line 75). -/
  | wrote (err : Option Err)
  /-- The call `m.Ack()` returns (line 79). -/
  | acked
deriving DecidableEq, Repr

/-- The function `work`: one statement of its loop, given what the environment
hands to it.  `none`: the statement at this program counter does not take
this event. -/
def work : WorkPc → WorkEvent → Option WorkPc
  | .select, .done => some (.ret none)
  | .select, .recv m => some (.write m)
  | .select, .closed => some (.ret none)
  | .write m, .wrote none => some (.ack m)
  | .write _, .wrote (some err) => some (.ret (some err))
  | .ack _, .acked => some .select
  | _, _ => none

/-- What one call of `work` has done so far; every list has the latest entry
first. -/
structure WorkLog where
  /-- Payloads received from `ch`. -/
  pulled : List SourcePayload
  /-- Calls of `Write` that returned, with the payload written and the value returned. -/
  writes : List (SourcePayload × Option Err)
  /-- Payloads acknowledged with `Ack()`. -/
  acks : List SourcePayload
deriving DecidableEq, Repr

/-- The record of one statement of `work` in the log. -/
def WorkLog.record (log : WorkLog) : WorkPc → WorkEvent → WorkLog
  | .select, .recv m => { log with pulled := m :: log.pulled }
  | .write m, .wrote err => { log with writes := (m, err) :: log.writes }
  | .ack m, .acked => { log with acks := m :: log.acks }
  | _, _ => log

/-- A call of `work` driven by a sequence of events, with its log. -/
def workRun : WorkPc → WorkLog → List WorkEvent → Option (WorkPc × WorkLog)
  | pc, log, [] => some (pc, log)
  | pc, log, ev :: evs =>
    match work pc ev with
    | some pc' => workRun pc' (log.record pc ev) evs
    | none => none

/-- The events of a call of `work` that receives the payloads `ms` one after
the other, every `Write` returning `nil` and every payload acknowledged,
followed by the event `last`. -/
def pullAll : List SourcePayload → WorkEvent → List WorkEvent
  | [], last => [last]
  | m :: ms, last => .recv m :: .wrote none :: .acked :: pullAll ms last

/-- State of the `sync.Once` of `Run`. -/
inductive OnceState where
  /-- No call of `Do` yet. -/
  | fresh
  /-- The function passed to the first `Do` is executing; other callers of `Do` block. -/
  | running
  /-- The function passed to the first `Do` has returned; later calls of `Do` do nothing. -/
  | complete
deriving DecidableEq, Repr

/-- Program counter of one goroutine started by `Run` (lines 46-55). -/
inductive GoPc where
  /-- Inside `work(done, ch, i.Writer)` (line 48); at `.ret err` the call has
  returned and the goroutine is at `if err != nil` (line 49). -/
  | work (pc : WorkPc)
  /-- Inside the function passed to `once.Do`, after `close(done)`, about to
  assign `outerErr = err` (line 52). -/
  | once (err : Err)
  /-- About to run the deferred `wg.Done()` (line 47). -/
  | deferred
  /-- The goroutine has ended. -/
  | exited
deriving DecidableEq, Repr

/-- Program counter of `Run` itself. -/
inductive RunPc where
  /-- At `wg.Wait()` (line 57). -/
  | wait
  /-- `Run` has returned `err` (lines 60, 63). -/
  | returned (err : Option Err)
deriving DecidableEq, Repr

/-- What has happened in a run, as recorded in the trace. -/
inductive Event where
  /-- Worker `n` took `case <-done`. -/
  | sawDone (n : Nat)
  /-- Worker `n` received `m` from `ch`. -/
  | pulled (n : Nat) (m : SourcePayload)
  /-- Worker `n` found `ch` closed. -/
  | sawClosed (n : Nat)
  /-- Worker `n` called `Write` for `m`, which returned `err`. -/
  | wrote (n : Nat) (m : SourcePayload) (err : Option Err)
  /-- Worker `n` called `m.Ack()`. -/
  | acked (n : Nat) (m : SourcePayload)
  /-- Worker `n`, holding `err`, entered the function of `once.Do` and closed `done`. -/
  | closedDone (n : Nat) (err : Err)
  /-- Worker `n` assigned `outerErr = err`. -/
  | setOuterErr (n : Nat) (err : Err)
  /-- Worker `n` called `once.Do` after the guard was taken: `err` is dropped. -/
  | discarded (n : Nat) (err : Err)
  /-- Worker `n` ran `wg.Done()` and ended. -/
  | exited (n : Nat)
  /-- The call of `Run` returned `err`. -/
  | returned (err : Option Err)
deriving DecidableEq, Repr

/-- The shared variables of one call of `Run`, the program counters of its
goroutines, and the trace (latest event first). -/
structure State where
  /-- What the channel `ch` of the source still holds; the source closes the
  channel after its last payload, so an empty `ch` is a closed channel. -/
  ch : List SourcePayload
  /-- The value of `i.Source.Error()`. -/
  srcErr : Option Err
  /-- Whether the channel `done` is closed. -/
  done : Bool
  once : OnceState
  outerErr : Option Err
  /-- Counter of the wait group `wg`, an `int32`. -/
  wg : Int
  goroutines : List GoPc
  run : RunPc
  /-- A Go panic has ended the program (negative wait-group counter, close of
  a closed channel). -/
  panicked : Bool
  trace : List Event
deriving DecidableEq, Repr

/-- What the scheduler picks: a goroutine with the statement it executes
next, together with the branch a `select` takes and the value an external
call returns. -/
inductive Action where
  /-- Worker `n`: the `select` takes `case <-done`. -/
  | selectDone (n : Nat)
  /-- Worker `n`: the `select` takes `case m, ok := <-ch`. -/
  | selectCh (n : Nat)
  /-- Worker `n`: `w.Write(m.TimeSeriesBatch)` returns `err`. -/
  | write (n : Nat) (err : Option Err)
  /-- Worker `n`: `m.Ack()`. -/
  | ack (n : Nat)
  /-- Worker `n`: `if err != nil { once.Do(...) }` up to and including `close(done)` (lines 49-51). -/
  | onceDo (n : Nat)
  /-- Worker `n`: `outerErr = err`, end of the function of `once.Do` (line 52). -/
  | setOuterErr (n : Nat)
  /-- Worker `n`: the deferred `wg.Done()` (line 47). -/
  | wgDone (n : Nat)
  /-- The call of `Run`: `wg.Wait()` returns, then lines 59-63. -/
  | wait
deriving DecidableEq, Repr

/-- The method `Ingester.Run` up to `wg.Wait()` (lines 37-56): the state in
which the goroutines have been started.  `wg.Add(i.NumWorkers)` sets the
32-bit counter to `int32(NumWorkers)` and panics when that is negative,
before any goroutine is started; otherwise the loop of line 45 starts
`NumWorkers` goroutines (none for a negative `NumWorkers`). -/
def Ingester.Run (i : Ingester) : State :=
  { ch := i.Source.Messages
    srcErr := i.Source.Error
    done := false
    once := .fresh
    outerErr := none
    wg := int32Of i.NumWorkers
    goroutines :=
      if int32Of i.NumWorkers < 0 then []
      else List.replicate i.NumWorkers.toNat (.work .select)
    run := .wait
    panicked := decide (int32Of i.NumWorkers < 0)
    trace := [] }

/-- What the counter of the WaitGroup holds beyond the goroutines that were
started, when `wg.Add` did not panic: `0` for `0 ≤ NumWorkers < 2^31`, and
`int32(NumWorkers)` for a negative `NumWorkers`, for which no goroutine is
started. -/
def Ingester.wgExcess (i : Ingester) : Int :=
  int32Of i.NumWorkers - i.NumWorkers.toNat

/-- The value `Run` returns (lines 59-63): `outerErr` when it is not `nil`,
otherwise `i.Source.Error()`. -/
def returnValue (outerErr srcErr : Option Err) : Option Err :=
  match outerErr with
  | some e => some e
  | none => srcErr

/-- Worker `n` moves from one statement of `work` to the next. -/
def State.workTo (s : State) (n : Nat) (pc : WorkPc) (ev : Event) : State :=
  { s with goroutines := s.goroutines.set n (.work pc), trace := ev :: s.trace }

/-- One statement of one goroutine of `Run`.  `none`: the goroutine is not at
that statement, or the statement blocks in this state. -/
def step (s : State) (a : Action) : Option State :=
  if s.panicked then none else
  match a with
  | .selectDone n =>
    match s.goroutines[n]? with
    | some (.work pc) =>
      if s.done then (work pc .done).map (fun pc' => s.workTo n pc' (.sawDone n)) else none
    | _ => none
  | .selectCh n =>
    match s.goroutines[n]? with
    | some (.work pc) =>
      match s.ch with
      | m :: rest =>
        (work pc (.recv m)).map (fun pc' => { s.workTo n pc' (.pulled n m) with ch := rest })
      | [] => (work pc .closed).map (fun pc' => s.workTo n pc' (.sawClosed n))
    | _ => none
  | .write n err =>
    match s.goroutines[n]? with
    | some (.work (.write m)) =>
      (work (.write m) (.wrote err)).map (fun pc' => s.workTo n pc' (.wrote n m err))
    | _ => none
  | .ack n =>
    match s.goroutines[n]? with
    | some (.work (.ack m)) =>
      (work (.ack m) .acked).map (fun pc' => s.workTo n pc' (.acked n m))
    | _ => none
  | .onceDo n =>
    match s.goroutines[n]? with
    | some (.work (.ret none)) =>
      some { s with goroutines := s.goroutines.set n .deferred }
    | some (.work (.ret (some err))) =>
      match s.once with
      | .fresh =>
        if s.done then some { s with panicked := true }
        else some { s with once := .running, done := true,
                           goroutines := s.goroutines.set n (.once err),
                           trace := .closedDone n err :: s.trace }
      | .running => none
      | .complete =>
        some { s with goroutines := s.goroutines.set n .deferred,
                      trace := .discarded n err :: s.trace }
    | _ => none
  | .setOuterErr n =>
    match s.goroutines[n]? with
    | some (.once err) =>
      some { s with outerErr := some err, once := .complete,
                    goroutines := s.goroutines.set n .deferred,
                    trace := .setOuterErr n err :: s.trace }
    | _ => none
  | .wgDone n =>
    match s.goroutines[n]? with
    | some .deferred =>
      if int32Of (s.wg - 1) < 0 then some { s with panicked := true }
      else some { s with wg := int32Of (s.wg - 1), goroutines := s.goroutines.set n .exited,
                         trace := .exited n :: s.trace }
    | _ => none
  | .wait =>
    match s.run with
    | .wait =>
      if s.wg = 0 then
        some { s with run := .returned (returnValue s.outerErr s.srcErr),
                      trace := .returned (returnValue s.outerErr s.srcErr) :: s.trace }
      else none
    | .returned _ => none

/-- A schedule executed from a state. -/
def exec : State → List Action → Option State
  | s, [] => some s
  | s, a :: as =>
    match step s a with
    | some s' => exec s' as
    | none => none

/-- The states a call of `Run` on `i` can be in. -/
def Reachable (i : Ingester) (s : State) : Prop :=
  ∃ sched, exec i.Run sched = some s

/-- No goroutine can move: the program has ended (or is stuck). -/
def Halted (s : State) : Prop :=
  ∀ a, step s a = none

/-- Weight 1 on the goroutines that have not ended. -/
def alive : GoPc → Nat
  | .exited => 0
  | _ => 1

/-- Weight 1 on the goroutines inside the function passed to `once.Do`. -/
def inOnce : GoPc → Nat
  | .once _ => 1
  | _ => 0

/-- Weight 1 on the goroutines whose `work` has returned an error and that
have not called `once.Do` yet. -/
def holdsErr : GoPc → Nat
  | .work (.ret (some _)) => 1
  | _ => 0

/-- Number of statements a goroutine executes at most before it ends, apart
from the three statements (receive, write, acknowledge) per payload it pulls. -/
def stepsLeft : GoPc → Nat
  | .exited => 0
  | .deferred => 1
  | .once _ => 2
  | .work (.ret _) => 3
  | .work .select => 4
  | .work (.ack _) => 5
  | .work (.write _) => 6

/-- A bound on the number of statements a run can still execute. -/
def State.budget (s : State) : Nat :=
  3 * s.ch.length + wsum stepsLeft s.goroutines
    + (match s.run with | .wait => 1 | .returned _ => 0)
    + (if s.panicked then 0 else 1)

/-- The first worker that reached the guard `once.Do` in a trace, with the
error it held. -/
def firstGuard : List Event → Option (Nat × Err)
  | [] => none
  | ev :: earlier =>
    match firstGuard earlier with
    | some g => some g
    | none =>
      match ev with
      | .closedDone n err => some (n, err)
      | .discarded n err => some (n, err)
      | _ => none

/-- Number of executions of `close(done)` in a trace. -/
def closes (t : List Event) : Nat :=
  t.countP (fun ev => match ev with | .closedDone _ _ => true | _ => false)

/-- Number of assignments to `outerErr` in a trace. -/
def outerErrWrites (t : List Event) : Nat :=
  t.countP (fun ev => match ev with | .setOuterErr _ _ => true | _ => false)

/-- Whether some call of `Write` in a trace returned an error. -/
def writeFailed (t : List Event) : Bool :=
  t.any (fun ev => match ev with | .wrote _ _ (some _) => true | _ => false)

/-- Whether an event is a worker receiving, writing or acknowledging a payload. -/
def Event.touchesPayload : Event → Bool
  | .pulled _ _ => true
  | .wrote _ _ _ => true
  | .acked _ _ => true
  | _ => false

/-- What the claim on cancellation asks of a run on `i`: in every state in
which `done` is closed, a worker at the `select`, whatever case the `select`
takes, leaves `work` with `nil` and leaves the channel of the source as it is. -/
def ExitsOnceCancelled (i : Ingester) : Prop :=
  ∀ sched s n a s', exec i.Run sched = some s → s.done = true →
    s.goroutines[n]? = some (.work .select) →
    (a = .selectDone n ∨ a = .selectCh n) → step s a = some s' →
    s'.goroutines[n]? = some (.work (.ret none)) ∧ s'.ch = s.ch

/-- What the log of a call of `work` looks like at each program counter. -/
def WorkInv : WorkPc → WorkLog → Prop
  | .select, log => log.pulled = log.acks ∧ log.writes = log.acks.map (fun m => (m, none))
  | .write m, log => log.pulled = m :: log.acks ∧ log.writes = log.acks.map (fun m => (m, none))
  | .ack m, log =>
    log.pulled = m :: log.acks ∧ log.writes = (m, none) :: log.acks.map (fun m => (m, none))
  | .ret none, log => log.pulled = log.acks ∧ log.writes = log.acks.map (fun m => (m, none))
  | .ret (some e), log =>
    ∃ m, log.pulled = m :: log.acks ∧
      log.writes = (m, some e) :: log.acks.map (fun m => (m, none))

/-- The invariant of a run of `Run` on `i`. -/
structure Inv (i : Ingester) (s : State) : Prop where
  srcErr : s.srcErr = i.Source.Error
  panic : s.panicked = true → int32Of i.NumWorkers < 0
  wgCount : s.panicked = false →
    s.wg = wsum alive s.goroutines + i.wgExcess ∧ 0 ≤ i.wgExcess ∧ s.wg < 2147483648
  fresh : s.once = .fresh →
    s.done = false ∧ s.outerErr = none ∧ wsum inOnce s.goroutines = 0 ∧
      firstGuard s.trace = none ∧ closes s.trace = 0 ∧ outerErrWrites s.trace = 0
  running : s.once = .running →
    s.done = true ∧ s.outerErr = none ∧ wsum inOnce s.goroutines = 1 ∧
      closes s.trace = 1 ∧ outerErrWrites s.trace = 0
  complete : s.once = .complete →
    s.done = true ∧ wsum inOnce s.goroutines = 0 ∧ closes s.trace = 1 ∧
      outerErrWrites s.trace = 1 ∧
      ∃ (n : Nat) (e : Err), s.outerErr = some e ∧ firstGuard s.trace = some (n, e)
  guard : ∀ (n : Nat) (e : Err),
    s.goroutines[n]? = some (.once e) → firstGuard s.trace = some (n, e)
  failed : writeFailed s.trace = true → s.once ≠ .fresh ∨ 0 < wsum holdsErr s.goroutines
  heldFrom : ∀ (n : Nat) (e : Err),
    s.goroutines[n]? = some (.work (.ret (some e))) ∨ s.goroutines[n]? = some (.once e) →
      ∃ m, Event.wrote n m (some e) ∈ s.trace
  outerFrom : ∀ e, s.outerErr = some e → ∃ n' m, Event.wrote n' m (some e) ∈ s.trace
  returned : ∀ r, s.run = .returned r →
    s.wg = 0 ∧ r = (returnValue s.outerErr s.srcErr)
  guardFrom : ∀ (n : Nat) (e : Err),
    firstGuard s.trace = some (n, e) → ∃ m, Event.wrote n m (some e) ∈ s.trace


/-- Scenario B of the specification: three workers and a source of five
batches that then closes without error. -/
def scenarioB : Ingester :=
  { NumWorkers := 3, Source := { Messages := [⟨1⟩, ⟨2⟩, ⟨3⟩, ⟨4⟩, ⟨5⟩], Error := none },
    fits := by decide }

/-- A schedule of scenario B: every worker pulls one batch, the write of
batch 3 fails, the two writes in flight succeed, and all workers leave at
their next `select`. -/
def scheduleB : List Action :=
  [.selectCh 0, .selectCh 1, .selectCh 2, .write 2 (some "write timeout"), .onceDo 2,
   .write 0 none, .ack 0, .write 1 none, .ack 1, .setOuterErr 2, .wgDone 2,
   .selectDone 0, .onceDo 0, .wgDone 0, .selectDone 1, .onceDo 1, .wgDone 1, .wait]

/-- An `Ingester` configured with a negative number of workers. -/
def negativeCount : Ingester :=
  { NumWorkers := -1, Source := { Messages := [⟨1⟩], Error := none }, fits := by decide }

/-- An `Ingester` whose number of workers does not fit the 32-bit counter of
the WaitGroup. -/
def overflowCount : Ingester :=
  { NumWorkers := 2147483648, Source := { Messages := [⟨1⟩], Error := none },
    fits := by decide }

/-- Two workers and two batches. -/
def twoWorkers : Ingester :=
  { NumWorkers := 2, Source := { Messages := [⟨1⟩, ⟨2⟩], Error := none }, fits := by decide }

/-- A schedule of `twoWorkers` in which both writes fail and worker 1 is the
first at the guard. -/
def scheduleBothFail : List Action :=
  [.selectCh 0, .selectCh 1, .write 0 (some "disk full"), .write 1 (some "write timeout"),
   .onceDo 1, .setOuterErr 1, .onceDo 0, .wgDone 0, .wgDone 1, .wait]

/-- A schedule of `twoWorkers`: the write of worker 0 fails and worker 0
closes `done`. -/
def scheduleCancel : List Action :=
  [.selectCh 0, .write 0 (some "write timeout"), .onceDo 0]

end ingester

/-! ## Package `indexer` -/

namespace indexer

/-- Modelled from the spec: the type `bus.Sample` of the repository is not
part of the sources at hand.  The pipeline never inspects a sample; the
number stands for the pointer `*bus.Sample`. -/
abbrev Sample := Nat

/-- Modelled from the spec: `bus.SampleGroup`, an ordered collection of
samples delivered and acknowledged as one unit. -/
abbrev SampleGroup := List Sample

/-- Modelled from the spec: the payload type of `bus.AckSource` is not part
of the sources at hand.  A payload carries one sample group and is
acknowledged with `Done(err)`. -/
structure AckPayload where
  SampleGroup : SampleGroup
deriving DecidableEq, Repr

/-- Modelled from the spec: the interface `bus.AckSource` of the repository
is not part of the sources at hand.  A source delivers a finite sequence of
payloads on the channel `Chan()`, closes the channel after the last one, and
reports its terminal error with `Err()`. -/
structure AckSource where
  Chan : List AckPayload
  Err : Option Err
deriving Repr

/-- The struct `Config`.  The `SampleIndexer` is external: the value every
`IndexSample` call returns is chosen by the scheduler action that performs
the call. -/
structure Config where
  Source : AckSource
  NumIndexGoroutines : Int
deriving Repr

/-- The struct `workPayload`; `wg` is the pointer `*sync.WaitGroup`, the
index of the wait group among those created so far. -/
structure workPayload where
  s : Sample
  wg : Nat
deriving DecidableEq, Repr

/-- Program counter of one goroutine `worker` (lines 141-161). -/
inductive WorkerPc where
  /-- At `for w := range i.work`, waiting to receive (line 142). -/
  | recv
  /-- Holding `w`, about to call `i.SampleIndexer.IndexSample(w.s)` (line 150). -/
  | index (w : workPayload)
  /-- `IndexSample` returned `err`, about to call `w.wg.Done()` (line 151). -/
  | wgDone (w : workPayload) (err : Option Err)
  /-- After `w.wg.Done()`, about to count the error or observe the duration
  (lines 152-159). -/
  | record (w : workPayload) (err : Option Err)
deriving DecidableEq, Repr

/-- Program counter of `Run`, with `indexSampleGroup` inlined. -/
inductive RunPc where
  /-- At `for payload := range ch` (line 110). -/
  | range
  /-- Inside `indexSampleGroup` for `payload`, after `wg.Add(len(sg))`: the
  samples `rest` are still to be sent on `i.work` (line 131); with no sample
  left `Run` is at `wg.Wait()` (line 137). -/
  | send (payload : AckPayload) (rest : List Sample) (wg : Nat)
  /-- Back from `indexSampleGroup`, about to call `payload.Done(nil)` (line 116). -/
  | done (payload : AckPayload)
  /-- The call of `Run` has returned `err` (line 119). -/
  | returned (err : Option Err)
deriving DecidableEq, Repr

/-- What a duration observation is about. -/
inductive Observed where
  /-- One sample (`time.Since(t0)` of a worker). -/
  | sample (w : workPayload)
  /-- One sample group, named by its wait group (`time.Since(t0)` of `indexSampleGroup`). -/
  | group (wg : Nat)
deriving DecidableEq, Repr

/-- The indexer: the shared variables, the program counter of `Run` and of
every worker, and the record of the calls made to the collaborators (latest
entry first in every list). -/
structure State where
  /-- What the channel `i.Source.Chan()` still holds; the source closes the
  channel after its last payload, so an empty `ch` is a closed channel. -/
  ch : List AckPayload
  /-- The value of `i.Source.Err()`. -/
  srcErr : Option Err
  run : RunPc
  workers : List WorkerPc
  /-- Counters of the wait groups created so far, one per call of `indexSampleGroup`. -/
  wgs : List Int
  /-- Calls of `IndexSample` that have returned, with the item and the value returned. -/
  calls : List (workPayload × Option Err)
  /-- Calls of `payload.Done(err)`. -/
  acks : List (AckPayload × Option Err)
  /-- Calls of `i.errorsTotal.WithLabelValues(stage).Add(1)`, with the item
  that caused each; the counter of a stage is the number of its entries. -/
  errorsTotal : List (String × workPayload)
  /-- Calls of `i.indexDurations.WithLabelValues(stage).Observe(...)`. -/
  indexDurations : List (String × Observed)
  /-- A Go panic has ended the program (negative wait-group counter). -/
  panicked : Bool
deriving DecidableEq, Repr

/-- What the scheduler picks: a goroutine with the statement it executes
next, together with the worker that takes a sample off `i.work` and the value
a call of `IndexSample` returns. -/
inductive Action where
  /-- `Run`: `for payload := range ch` receives the next payload and enters
  `indexSampleGroup` up to `wg.Add(len(sg))` (lines 110-128), or finds the
  channel closed and returns `i.Source.Err()` (line 119). -/
  | next
  /-- `Run` sends the next sample on the unbuffered `i.work` (line 131) and
  worker `n` receives it (line 142). -/
  | send (n : Nat)
  /-- `Run`: `wg.Wait()` returns and the group duration is observed (lines 137-138). -/
  | wait
  /-- `Run`: `payload.Done(nil)` (line 116). -/
  | done
  /-- Worker `n`: `i.SampleIndexer.IndexSample(w.s)` returns `err` (line 150). -/
  | index (n : Nat) (err : Option Err)
  /-- Worker `n`: `w.wg.Done()` (line 151). -/
  | wgDone (n : Nat)
  /-- Worker `n`: count the error or observe the duration (lines 152-159). -/
  | record (n : Nat)
deriving DecidableEq, Repr

/-- The function `NewIndexer` followed by the call of `Run` up to its loop:
`numIndexGoroutines` workers wait on `i.work` and `Run` is at its `range`. -/
def NewIndexer (config : Config) : State :=
  { ch := config.Source.Chan
    srcErr := config.Source.Err
    run := .range
    workers := List.replicate config.NumIndexGoroutines.toNat .recv
    wgs := []
    calls := []
    acks := []
    errorsTotal := []
    indexDurations := []
    panicked := false }

/-- One statement of `Run` (with `indexSampleGroup`) or of a `worker`.
`none`: the goroutine is not at that statement, or the statement blocks in
this state. -/
def step (s : State) (a : Action) : Option State :=
  if s.panicked then none else
  match a with
  | .next =>
    match s.run with
    | .range =>
      match s.ch with
      | payload :: rest =>
        some { s with ch := rest
                      run := .send payload payload.SampleGroup s.wgs.length
                      wgs := s.wgs ++ [(payload.SampleGroup.length : Int)] }
      | [] => some { s with run := .returned s.srcErr }
    | _ => none
  | .send n =>
    match s.run, s.workers[n]? with
    | .send payload (x :: rest) wg, some .recv =>
      some { s with run := .send payload rest wg
                    workers := s.workers.set n (.index { s := x, wg := wg }) }
    | _, _ => none
  | .wait =>
    match s.run with
    | .send payload [] wg =>
      if s.wgs[wg]? = some 0 then
        some { s with run := .done payload
                      indexDurations := ("index_sample_group", .group wg) :: s.indexDurations }
      else none
    | _ => none
  | .done =>
    match s.run with
    | .done payload => some { s with run := .range, acks := (payload, none) :: s.acks }
    | _ => none
  | .index n err =>
    match s.workers[n]? with
    | some (.index w) =>
      some { s with calls := (w, err) :: s.calls, workers := s.workers.set n (.wgDone w err) }
    | _ => none
  | .wgDone n =>
    match s.workers[n]? with
    | some (.wgDone w err) =>
      match s.wgs[w.wg]? with
      | some c =>
        if c - 1 < 0 then some { s with panicked := true }
        else some { s with wgs := s.wgs.set w.wg (c - 1)
                           workers := s.workers.set n (.record w err) }
      | none => none
    | _ => none
  | .record n =>
    match s.workers[n]? with
    | some (.record w (some _)) =>
      some { s with errorsTotal := ("index_sample", w) :: s.errorsTotal
                    workers := s.workers.set n .recv }
    | some (.record w none) =>
      some { s with indexDurations := ("index_sample", .sample w) :: s.indexDurations
                    workers := s.workers.set n .recv }
    | _ => none

/-- A schedule executed from a state. -/
def exec : State → List Action → Option State
  | s, [] => some s
  | s, a :: as =>
    match step s a with
    | some s' => exec s' as
    | none => none

/-- No goroutine can move: the program has ended, or is blocked for good. -/
def Halted (s : State) : Prop :=
  ∀ a, step s a = none

/-- The items whose call of `IndexSample` has returned. -/
def calledItems (s : State) : List workPayload :=
  s.calls.map Prod.fst

/-- The items whose call of `IndexSample` returned an error. -/
def failedItems (s : State) : List workPayload :=
  (s.calls.filter (fun c => c.2.isSome)).map Prod.fst

/-- The items whose call of `IndexSample` returned `nil`. -/
def succeededItems (s : State) : List workPayload :=
  (s.calls.filter (fun c => c.2.isNone)).map Prod.fst

/-- The items for which the error counter of the stage was incremented. -/
def erroredItems (stage : String) (s : State) : List workPayload :=
  (s.errorsTotal.filter (fun e => e.1 = stage)).map Prod.snd

/-- The items for which a duration of the stage was observed. -/
def observedItems (stage : String) (s : State) : List workPayload :=
  s.indexDurations.filterMap
    (fun o => match o with
      | (st, .sample w) => if st = stage then some w else none
      | _ => none)

/-- The value of the error counter of a stage. -/
def errorCounter (stage : String) (s : State) : Nat :=
  (s.errorsTotal.filter (fun e => e.1 = stage)).length

/-- The acknowledgments in the order they were made. -/
def ackSequence (s : State) : List (AckPayload × Option Err) :=
  s.acks.reverse

/-- The sample group of the `g`-th payload of a source (counting from 0);
its wait group is the `g`-th one created. -/
def groupOf (src : List AckPayload) (g : Nat) : SampleGroup :=
  match src[g]? with
  | some payload => payload.SampleGroup
  | none => []

/-- The payload `Run` is processing, if any. -/
def RunPc.current : RunPc → List AckPayload
  | .send payload _ _ => [payload]
  | .done payload => [payload]
  | _ => []

/-- How often the sample of an item is still to be sent by `Run`. -/
def RunPc.unsent (w : workPayload) : RunPc → Nat
  | .send _ rest wg => if wg = w.wg then rest.count w.s else 0
  | _ => 0

/-- How many samples of a wait group are still to be sent by `Run`. -/
def RunPc.unsentOf (g : Nat) : RunPc → Nat
  | .send _ rest wg => if wg = g then rest.length else 0
  | _ => 0

/-- Weight 1 on the workers about to call `IndexSample` for the item. -/
def atIndex (w : workPayload) : WorkerPc → Nat
  | .index w' => if w' = w then 1 else 0
  | _ => 0

/-- Weight 1 on the workers that hold an item of a wait group and have not
called `Done` on it yet. -/
def pendingOn (g : Nat) : WorkerPc → Nat
  | .index w' => if w'.wg = g then 1 else 0
  | .wgDone w' _ => if w'.wg = g then 1 else 0
  | _ => 0

/-- Weight 1 on the workers whose call for the item failed and that have not
counted the error yet. -/
def errPending (w : workPayload) : WorkerPc → Nat
  | .wgDone w' (some _) => if w' = w then 1 else 0
  | .record w' (some _) => if w' = w then 1 else 0
  | _ => 0

/-- Weight 1 on the workers whose call for the item succeeded and that have
not observed the duration yet. -/
def okPending (w : workPayload) : WorkerPc → Nat
  | .wgDone w' none => if w' = w then 1 else 0
  | .record w' none => if w' = w then 1 else 0
  | _ => 0

/-- The wait group of the item a worker holds. -/
def WorkerPc.holds : WorkerPc → Option Nat
  | .recv => none
  | .index w => some w.wg
  | .wgDone w _ => some w.wg
  | .record w _ => some w.wg

/-- Number of statements a worker executes before it is back at its `range`. -/
def stepsLeft : WorkerPc → Nat
  | .recv => 0
  | .index _ => 3
  | .wgDone _ _ => 2
  | .record _ _ => 1

/-- Number of statements `Run` and the workers execute for the payloads
still on the channel: four per sample and three per payload. -/
def chBudget : List AckPayload → Nat
  | [] => 0
  | payload :: rest => 4 * payload.SampleGroup.length + 3 + chBudget rest

/-- A bound on the number of statements a run can still execute. -/
def State.budget (s : State) : Nat :=
  chBudget s.ch + wsum stepsLeft s.workers
    + (match s.run with
       | .range => 1
       | .send _ rest _ => 4 * rest.length + 3
       | .done _ => 2
       | .returned _ => 0)
    + (if s.panicked then 0 else 1)

/-- All items of the wait group `g` have been handled: the group has been
started, `Run` has no sample of it left to send, and no worker holds one of
its items. -/
def GroupHandled (s : State) (g : Nat) : Prop :=
  g < s.wgs.length ∧ s.run.unsentOf g = 0 ∧ ∀ pc ∈ s.workers, pc.holds ≠ some g

/-- The invariant of a run of the indexer built from `config`. -/
structure Inv (config : Config) (s : State) : Prop where
  srcErr : s.srcErr = config.Source.Err
  notPanicked : s.panicked = false
  received : (ackSequence s).map Prod.fst ++ s.run.current ++ s.ch = config.Source.Chan
  ackNil : ∀ a ∈ s.acks, a.2 = none
  wgsLength : s.wgs.length = s.acks.length + s.run.current.length
  sendLast : ∀ payload rest wg, s.run = .send payload rest wg → wg + 1 = s.wgs.length
  returned : ∀ r, s.run = .returned r → r = config.Source.Err ∧ s.ch = []
  items : ∀ w : workPayload,
    (calledItems s).count w + wsum (atIndex w) s.workers + s.run.unsent w
      = if w.wg < s.wgs.length then (groupOf config.Source.Chan w.wg).count w.s else 0
  counter : ∀ g : Nat,
    s.wgs.getD g 0 = ((wsum (pendingOn g) s.workers + s.run.unsentOf g : Nat) : Int)
  finished : ∀ g : Nat, g < s.wgs.length →
    (∃ payload rest, s.run = .send payload rest g) ∨ s.wgs.getD g 0 = 0
  errors : ∀ w : workPayload,
    (failedItems s).count w
      = (erroredItems "index_sample" s).count w + wsum (errPending w) s.workers
  durations : ∀ w : workPayload,
    (succeededItems s).count w
      = (observedItems "index_sample" s).count w + wsum (okPending w) s.workers

/-- What the claim on groups asks of a run that has come to rest: every
payload of the source has been acknowledged exactly once with `nil`, in
order, and `IndexSample` has been called exactly once for every sample of
every group. -/
def AllGroupsIndexed (config : Config) (s : State) : Prop :=
  ackSequence s = config.Source.Chan.map (fun payload => (payload, none)) ∧
  ∀ g, g < config.Source.Chan.length →
    List.Perm (((calledItems s).filter (fun w => w.wg = g)).map workPayload.s)
      (groupOf config.Source.Chan g)

/-- Scenario A of the specification: two workers and a source of one group
of three samples. -/
def scenarioA : Config :=
  { Source := { Chan := [⟨[10, 20, 30]⟩], Err := none }, NumIndexGoroutines := 2 }

/-- A schedule of scenario A in which the call for the second sample fails. -/
def scheduleA : List Action :=
  [.next, .send 0, .send 1, .index 1 (some "disk full"), .index 0 none, .wgDone 0,
   .record 0, .send 0, .wgDone 1, .index 0 none, .wgDone 0, .wait, .done, .record 1,
   .record 0, .next]

/-- One worker and a source of one group of one sample that ends with the
error "eof". -/
def endsWithErr : Config :=
  { Source := { Chan := [⟨[10]⟩], Err := some "eof" }, NumIndexGoroutines := 1 }

/-- A schedule of `endsWithErr` in which the call of `IndexSample` fails. -/
def scheduleErr : List Action :=
  [.next, .send 0, .index 0 (some "disk full"), .wgDone 0, .record 0, .wait, .done, .next]

/-- An indexer without workers and a source of one group of one sample. -/
def noWorkers : Config :=
  { Source := { Chan := [⟨[10]⟩], Err := none }, NumIndexGoroutines := 0 }

/-- The state in which the indexer without workers is blocked: `Run` has
received the payload and waits to hand its sample to a worker. -/
def blocked : State :=
  { ch := [], srcErr := none, run := .send ⟨[10]⟩ [10] 0, workers := [], wgs := [1],
    calls := [], acks := [], errorsTotal := [], indexDurations := [], panicked := false }

end indexer

/-! ## Proofs: pools of goroutines -/

theorem wsum_nil {α : Type} (f : α → Nat) : wsum f [] = 0 := rfl

theorem wsum_cons {α : Type} (f : α → Nat) (a : α) (l : List α) :
    wsum f (a :: l) = f a + wsum f l := by
  simp [wsum]

theorem wsum_replicate {α : Type} (f : α → Nat) (k : Nat) (a : α) :
    wsum f (List.replicate k a) = k * f a := by
  induction k with
  | zero => simp [wsum]
  | succ k ih => rw [List.replicate_succ, wsum_cons, ih]; ring

/-- Replacing the program counter of one goroutine moves its weight. -/
theorem wsum_set {α : Type} (f : α → Nat) (l : List α) (n : Nat) (a x : α)
    (h : l[n]? = some a) : wsum f (l.set n x) + f a = wsum f l + f x := by
  induction l generalizing n with
  | nil => simp at h
  | cons b l ih =>
    cases n with
    | zero =>
      simp at h
      subst h
      simp only [List.set_cons_zero, wsum_cons]
      omega
    | succ n =>
      simp at h
      have := ih n h
      simp only [List.set_cons_succ, wsum_cons]
      omega

theorem wsum_pos {α : Type} (f : α → Nat) (l : List α) (h : 0 < wsum f l) :
    ∃ (n : Nat) (a : α), l[n]? = some a ∧ 0 < f a := by
  induction l with
  | nil => simp [wsum] at h
  | cons b l ih =>
    rw [wsum_cons] at h
    by_cases hb : 0 < f b
    · exact ⟨0, b, by simp, hb⟩
    · obtain ⟨n, a, hn, ha⟩ := ih (by omega)
      exact ⟨n + 1, a, by simpa using hn, ha⟩

theorem wsum_le {α : Type} (f : α → Nat) (l : List α) (n : Nat) (a : α)
    (h : l[n]? = some a) : f a ≤ wsum f l := by
  induction l generalizing n with
  | nil => simp at h
  | cons b l ih =>
    rw [wsum_cons]
    cases n with
    | zero => simp at h; subst h; omega
    | succ n => simp at h; have := ih n h; omega

theorem wsum_eq_zero {α : Type} (f : α → Nat) (l : List α) (h : ∀ a ∈ l, f a = 0) :
    wsum f l = 0 := by
  induction l with
  | nil => rfl
  | cons b l ih =>
    rw [wsum_cons, h b (List.mem_cons_self _ _), ih (fun a ha => h a (List.mem_cons_of_mem _ ha))]

theorem mem_of_getElem? {α : Type} {l : List α} {n : Nat} {a : α} (h : l[n]? = some a) :
    a ∈ l := by
  obtain ⟨hlt, rfl⟩ := List.getElem?_eq_some_iff.1 h
  exact List.getElem_mem _

theorem getElem?_set_of {α : Type} (l : List α) (n k : Nat) (a x : α) (h : l[n]? = some a) :
    (l.set n x)[k]? = if n = k then some x else l[k]? := by
  rw [List.getElem?_set]
  have hlt : n < l.length := by
    rcases Nat.lt_or_ge n l.length with h1 | h1
    · exact h1
    · rw [List.getElem?_eq_none h1] at h; cases h
  simp [hlt]

theorem getD_set_of {α : Type} (l : List α) (k g : Nat) (c v d : α) (h : l[k]? = some c) :
    (l.set k v).getD g d = if k = g then v else l.getD g d := by
  rw [List.getD_eq_getElem?_getD, List.getD_eq_getElem?_getD, getElem?_set_of _ _ _ _ _ h]
  split <;> simp

theorem getD_append_one {α : Type} (l : List α) (g : Nat) (v d : α) :
    (l ++ [v]).getD g d = if g = l.length then v else l.getD g d := by
  rw [List.getD_eq_getElem?_getD, List.getD_eq_getElem?_getD]
  rcases Nat.lt_trichotomy g l.length with h | h | h
  · rw [List.getElem?_append_left h, if_neg (by omega)]
  · subst h
    simp
  · rw [if_neg (by omega), List.getElem?_eq_none (by simp; omega),
      List.getElem?_eq_none (by omega)]

theorem getD_of_getElem? {α : Type} (l : List α) (g : Nat) (c d : α) (h : l[g]? = some c) :
    l.getD g d = c := by
  rw [List.getD_eq_getElem?_getD, h]
  rfl

theorem getD_of_length_le {α : Type} (l : List α) (g : Nat) (d : α) (h : l.length ≤ g) :
    l.getD g d = d := by
  rw [List.getD_eq_getElem?_getD, List.getElem?_eq_none h]
  rfl

theorem wsum_mono {α : Type} (f g : α → Nat) (l : List α) (h : ∀ a, f a ≤ g a) :
    wsum f l ≤ wsum g l := by
  induction l with
  | nil => simp [wsum]
  | cons b l ih => rw [wsum_cons, wsum_cons]; have := h b; omega

theorem eq_map_of_fst {α β : Type} (b : β) (l : List (α × β)) (m : List α)
    (h1 : l.map Prod.fst = m) (h2 : ∀ a ∈ l, a.2 = b) : l = m.map (fun a => (a, b)) := by
  subst h1
  induction l with
  | nil => rfl
  | cons a l ih =>
    simp only [List.map_cons]
    rw [← ih (fun x hx => h2 x (List.mem_cons_of_mem _ hx))]
    have := h2 a (List.mem_cons_self _ _)
    cases a
    simp at this
    simp [this]

/-! ## Proofs: package `convert` -/

namespace convert

theorem rangeLoop_entries (l : List (Sigma (fun _ : LabelName => LabelValue))) :
    ∀ labels : GoMap String String, (l.map Sigma.fst).Nodup →
      (∀ e ∈ l, e.1.val ∉ labels) →
      (rangeLoop labels l).entries = (l.map convertEntry).reverse ++ labels.entries := by
  induction l with
  | nil => intro labels _ _; simp [rangeLoop]
  | cons e rest ih =>
    intro labels hnd hfresh
    have hnd' : e.1 ∉ rest.map Sigma.fst ∧ (rest.map Sigma.fst).Nodup := by
      simpa using hnd
    have he : e.1.val ∉ labels := hfresh e (List.mem_cons_self _ _)
    have hfresh' : ∀ e' ∈ rest, e'.1.val ∉ labels.set e.1.val e.2.val := by
      intro e' he' hmem
      rcases (AList.mem_insert labels).1 hmem with h | h
      · apply hnd'.1
        have hk : e'.1 = e.1 := by
          cases hx : e'.1; cases hy : e.1
          simp [hx, hy] at h
          simp [h]
        exact hk ▸ List.mem_map_of_mem Sigma.fst he'
      · exact hfresh e' (List.mem_cons_of_mem _ he') h
    rw [rangeLoop, ih _ hnd'.2 hfresh']
    have hins : (labels.set e.1.val e.2.val).entries = ⟨e.1.val, e.2.val⟩ :: labels.entries :=
      AList.insert_entries_of_neg he
    rw [hins]
    simp [convertEntry]

/-- C9: for every metric `m`, the labels of `MetricToTimeSeries m` are exactly
the entries of `m.Metric` converted to strings (as a list: the converted
entries in reverse visiting order, so nothing is added, dropped or changed),
looking a string up in the result gives the converted value stored in
`m.Metric` under that label name, a string is a key of the result exactly when
it is a label name of `m`, and the `Samples` list is empty. -/
theorem MetricToTimeSeries_labels (m : Metric) :
    (MetricToTimeSeries m).Labels.entries = (m.Metric.entries.map convertEntry).reverse ∧
    (∀ k : String, (MetricToTimeSeries m).Labels.lookup k =
        (m.Metric.lookup ⟨k⟩).map LabelValue.val) ∧
    (∀ k : String, k ∈ (MetricToTimeSeries m).Labels ↔ (⟨k⟩ : LabelName) ∈ m.Metric) ∧
    (MetricToTimeSeries m).Labels.entries.length = m.Metric.entries.length ∧
    (MetricToTimeSeries m).Samples = [] := by
  have hent : (MetricToTimeSeries m).Labels.entries =
      (m.Metric.entries.map convertEntry).reverse := by
    have h := rangeLoop_entries m.Metric.entries ∅ m.Metric.nodupKeys
      (fun e _ => AList.not_mem_empty _)
    simpa [MetricToTimeSeries] using h
  have hlook : ∀ k : String, (MetricToTimeSeries m).Labels.lookup k =
      (m.Metric.lookup ⟨k⟩).map LabelValue.val := by
    intro k
    cases hl : m.Metric.lookup ⟨k⟩ with
    | none =>
      rw [Option.map_none', AList.lookup_eq_none, AList.mem_keys, AList.keys, hent]
      intro hk
      have hk' : (⟨k⟩ : LabelName) ∈ m.Metric.keys := by
        simp only [List.keys, List.map_reverse, List.mem_reverse, List.map_map,
          List.mem_map, Function.comp] at hk
        obtain ⟨e, he, hek⟩ := hk
        have : e.1 = (⟨k⟩ : LabelName) := by
          cases hx : e.1
          simp [convertEntry, hx] at hek
          simp [hek]
        rw [← this]
        exact List.mem_map_of_mem Sigma.fst he
      exact (AList.lookup_eq_none.1 hl) (AList.mem_keys.2 hk')
    | some v =>
      rw [Option.map_some', ← Option.mem_def, AList.mem_lookup_iff, hent, List.mem_reverse]
      have hv : (⟨(⟨k⟩ : LabelName), v⟩ : Sigma (fun _ : LabelName => LabelValue))
          ∈ m.Metric.entries := AList.mem_lookup_iff.1 hl
      exact List.mem_map.2 ⟨_, hv, rfl⟩
  refine ⟨hent, hlook, ?_, ?_, rfl⟩
  · intro k
    rw [← AList.lookup_isSome, ← AList.lookup_isSome, hlook k]
    cases m.Metric.lookup ⟨k⟩ <;> simp
  · rw [hent]; simp

end convert

/-! ## Proofs: package `ingester` -/

namespace ingester

theorem step_panicked {s s' : State} {a : Action} (h : step s a = some s') :
    s.panicked = false := by
  by_contra hp
  simp [step, hp] at h

theorem step_selectDone {s s' : State} {n : Nat} (h : step s (.selectDone n) = some s') :
    s.done = true ∧ s.goroutines[n]? = some (.work .select) ∧
      s' = s.workTo n (.ret none) (.sawDone n) := by
  have hp := step_panicked h
  rw [step, if_neg (by simp [hp])] at h
  cases hg : s.goroutines[n]? with
  | none => simp [hg] at h
  | some g =>
    cases g with
    | work pc =>
      cases pc <;> cases hd : s.done <;> simp [hg, hd, work] at h
      exact ⟨rfl, rfl, h.symm⟩
    | _ => simp [hg] at h

theorem step_selectCh {s s' : State} {n : Nat} (h : step s (.selectCh n) = some s') :
    s.goroutines[n]? = some (.work .select) ∧
      ((∃ m rest, s.ch = m :: rest ∧
          s' = { s.workTo n (.write m) (.pulled n m) with ch := rest }) ∨
       (s.ch = [] ∧ s' = s.workTo n (.ret none) (.sawClosed n))) := by
  have hp := step_panicked h
  rw [step, if_neg (by simp [hp])] at h
  cases hg : s.goroutines[n]? with
  | none => simp [hg] at h
  | some g =>
    cases g with
    | work pc =>
      cases pc <;> cases hc : s.ch <;> simp [hg, hc, work] at h
      · exact ⟨rfl, Or.inr ⟨rfl, h.symm⟩⟩
      · exact ⟨rfl, Or.inl ⟨_, _, rfl, h.symm⟩⟩
    | _ => simp [hg] at h

theorem step_write {s s' : State} {n : Nat} {err : Option Err}
    (h : step s (.write n err) = some s') :
    ∃ m pc', s.goroutines[n]? = some (.work (.write m)) ∧
      work (.write m) (.wrote err) = some pc' ∧ s' = s.workTo n pc' (.wrote n m err) := by
  have hp := step_panicked h
  rw [step, if_neg (by simp [hp])] at h
  cases hg : s.goroutines[n]? with
  | none => simp [hg] at h
  | some g =>
    cases g with
    | work pc =>
      cases pc <;> simp [hg] at h
      obtain ⟨pc', h1, h2⟩ := h
      exact ⟨_, pc', rfl, h1, h2.symm⟩
    | _ => simp [hg] at h

theorem step_ack {s s' : State} {n : Nat} (h : step s (.ack n) = some s') :
    ∃ m, s.goroutines[n]? = some (.work (.ack m)) ∧
      s' = s.workTo n .select (.acked n m) := by
  have hp := step_panicked h
  rw [step, if_neg (by simp [hp])] at h
  cases hg : s.goroutines[n]? with
  | none => simp [hg] at h
  | some g =>
    cases g with
    | work pc =>
      cases pc <;> simp [hg, work] at h
      exact ⟨_, rfl, h.symm⟩
    | _ => simp [hg] at h

theorem step_onceDo {s s' : State} {n : Nat} (h : step s (.onceDo n) = some s') :
    (s.goroutines[n]? = some (.work (.ret none)) ∧
        s' = { s with goroutines := s.goroutines.set n .deferred }) ∨
    (∃ err, s.goroutines[n]? = some (.work (.ret (some err))) ∧
      ((s.once = .fresh ∧ s.done = true ∧ s' = { s with panicked := true }) ∨
       (s.once = .fresh ∧ s.done = false ∧
          s' = { s with once := .running, done := true,
                        goroutines := s.goroutines.set n (.once err),
                        trace := .closedDone n err :: s.trace }) ∨
       (s.once = .complete ∧
          s' = { s with goroutines := s.goroutines.set n .deferred,
                        trace := .discarded n err :: s.trace }))) := by
  have hp := step_panicked h
  rw [step, if_neg (by simp [hp])] at h
  cases hg : s.goroutines[n]? with
  | none => simp [hg] at h
  | some g =>
    cases g with
    | work pc =>
      cases pc with
      | ret r =>
        cases r with
        | none => simp [hg] at h; exact Or.inl ⟨rfl, h.symm⟩
        | some e =>
          right
          refine ⟨e, rfl, ?_⟩
          cases ho : s.once <;> cases hd : s.done <;> simp [hg, ho, hd] at h
          · exact Or.inr (Or.inl ⟨rfl, rfl, h.symm⟩)
          · exact Or.inl ⟨rfl, rfl, h.symm⟩
          · exact Or.inr (Or.inr ⟨rfl, h.symm⟩)
          · exact Or.inr (Or.inr ⟨rfl, h.symm⟩)
      | _ => simp [hg] at h
    | _ => simp [hg] at h

theorem step_setOuterErr {s s' : State} {n : Nat} (h : step s (.setOuterErr n) = some s') :
    ∃ err, s.goroutines[n]? = some (.once err) ∧
      s' = { s with outerErr := some err, once := .complete,
                    goroutines := s.goroutines.set n .deferred,
                    trace := .setOuterErr n err :: s.trace } := by
  have hp := step_panicked h
  rw [step, if_neg (by simp [hp])] at h
  cases hg : s.goroutines[n]? with
  | none => simp [hg] at h
  | some g =>
    cases g <;> simp [hg] at h
    exact ⟨_, rfl, h.symm⟩

theorem step_wgDone {s s' : State} {n : Nat} (h : step s (.wgDone n) = some s') :
    s.goroutines[n]? = some .deferred ∧
      ((int32Of (s.wg - 1) < 0 ∧ s' = { s with panicked := true }) ∨
       (0 ≤ int32Of (s.wg - 1) ∧
        s' = { s with wg := int32Of (s.wg - 1), goroutines := s.goroutines.set n .exited,
                      trace := .exited n :: s.trace })) := by
  have hp := step_panicked h
  rw [step, if_neg (by simp [hp])] at h
  cases hg : s.goroutines[n]? with
  | none => simp [hg] at h
  | some g =>
    cases g <;> simp [hg] at h
    refine ⟨rfl, ?_⟩
    split at h
    · left; exact ⟨by omega, by simpa using h.symm⟩
    · right; exact ⟨by omega, by simpa using h.symm⟩

theorem step_wait {s s' : State} (h : step s .wait = some s') :
    s.run = .wait ∧ s.wg = 0 ∧
      s' = { s with run := .returned (returnValue s.outerErr s.srcErr),
                    trace := .returned (returnValue s.outerErr s.srcErr) :: s.trace } := by
  have hp := step_panicked h
  rw [step, if_neg (by simp [hp])] at h
  cases hr : s.run with
  | wait =>
    simp [hr] at h
    exact ⟨rfl, h.1, h.2.symm⟩
  | returned r => simp [hr] at h

/-- Every goroutine `Run` starts is at the `select` of `work`. -/
theorem Run_goroutines (i : Ingester) (n : Nat) (g : GoPc)
    (h : i.Run.goroutines[n]? = some g) : g = .work .select := by
  simp only [Ingester.Run] at h
  split at h
  · simp at h
  · rw [List.getElem?_replicate] at h
    split at h <;> simp at h
    exact h.symm

theorem wsum_Run (i : Ingester) (f : GoPc → Nat) :
    wsum f i.Run.goroutines
      = (if int32Of i.NumWorkers < 0 then 0 else i.NumWorkers.toNat) * f (.work .select) := by
  simp only [Ingester.Run]
  split
  · simp [wsum]
  · rw [wsum_replicate]

theorem inv_init (i : Ingester) : Inv i i.Run := by
  refine ⟨rfl, ?_, ?_, ?_, ?_, ?_, ?_, ?_, ?_, ?_, ?_, ?_⟩
  · intro h; simpa [Ingester.Run] using h
  · intro h
    have hn : ¬ int32Of i.NumWorkers < 0 := by simpa [Ingester.Run] using h
    have hf := i.fits
    rw [wsum_Run, if_neg hn]
    simp only [Ingester.Run, Ingester.wgExcess, alive]
    simp only [int32Of] at hn ⊢
    omega
  · intro _
    refine ⟨rfl, rfl, ?_, rfl, rfl, rfl⟩
    rw [wsum_Run]
    simp [inOnce]
  · intro h; simp [Ingester.Run] at h
  · intro h; simp [Ingester.Run] at h
  · intro n e h
    have := Run_goroutines i n _ h
    cases this
  · intro h; simp [Ingester.Run, writeFailed] at h
  · intro n e h
    rcases h with h | h
    · have := Run_goroutines i n _ h
      cases this
    · have := Run_goroutines i n _ h
      cases this
  · intro e h; simp [Ingester.Run] at h
  · intro r h; simp [Ingester.Run] at h
  · intro n e h; simp [Ingester.Run, firstGuard] at h

/-- A worker moving inside `work` keeps the invariant. -/
theorem inv_workTo {i : Ingester} {s : State} {n : Nat} {pc pc' : WorkPc} (ev : Event)
    (c : List SourcePayload)
    (hinv : Inv i s) (hp : s.panicked = false)
    (hg : s.goroutines[n]? = some (.work pc)) (hpc : ∀ r, pc ≠ .ret (some r))
    (hfg : ∀ t, firstGuard (ev :: t) = firstGuard t)
    (hcl : ∀ t, closes (ev :: t) = closes t)
    (how : ∀ t, outerErrWrites (ev :: t) = outerErrWrites t)
    (hfail : ∀ t, writeFailed (ev :: t) = true → writeFailed t = true ∨ ∃ e, pc' = .ret (some e))
    (hret : ∀ e, pc' = .ret (some e) → ∃ m, ev = .wrote n m (some e)) :
    Inv i { s.workTo n pc' ev with ch := c } := by
  have hset := fun f => wsum_set f s.goroutines n (.work pc) (.work pc') hg
  have ha := hset alive
  have ho := hset inOnce
  have hh := hset holdsErr
  have halive : ∀ q, alive (.work q) = 1 := fun q => rfl
  have hin : ∀ q, inOnce (.work q) = 0 := fun q => rfl
  have hpc0 : holdsErr (.work pc) = 0 := by
    cases pc with
    | ret r => cases r with
      | none => rfl
      | some e => exact absurd rfl (hpc e)
    | _ => rfl
  rw [halive, halive] at ha
  rw [hin, hin] at ho
  rw [hpc0] at hh
  have hwrun : s.run = .wait := by
    cases hr : s.run with
    | wait => rfl
    | returned r =>
      have h1 := (hinv.returned r hr).1
      have h2 := hinv.wgCount hp
      have h3 := wsum_le alive _ _ _ hg
      rw [halive] at h3
      omega
  refine ⟨hinv.srcErr, ?_, ?_, ?_, ?_, ?_, ?_, ?_, ?_, ?_, ?_, ?_⟩
  · intro h; simp [State.workTo, hp] at h
  · intro _
    simp only [State.workTo]
    have := hinv.wgCount hp
    omega
  · intro h
    obtain ⟨h1, h2, h3, h4, h5, h6⟩ := hinv.fresh h
    simp only [State.workTo, hfg, hcl, how]
    exact ⟨h1, h2, by omega, h4, h5, h6⟩
  · intro h
    obtain ⟨h1, h2, h3, h4, h5⟩ := hinv.running h
    simp only [State.workTo, hcl, how]
    exact ⟨h1, h2, by omega, h4, h5⟩
  · intro h
    obtain ⟨h1, h2, h3, h4, h5⟩ := hinv.complete h
    simp only [State.workTo, hfg, hcl, how]
    exact ⟨h1, by omega, h3, h4, h5⟩
  · intro k e hk
    simp only [State.workTo] at hk ⊢
    rw [getElem?_set_of _ _ _ _ _ hg] at hk
    rw [hfg]
    split at hk
    · simp at hk
    · exact hinv.guard k e hk
  · intro hf
    simp only [State.workTo] at hf ⊢
    rcases hfail _ hf with h1 | ⟨e, h1⟩
    · rcases hinv.failed h1 with h2 | h2
      · exact Or.inl h2
      · right; omega
    · right
      subst h1
      have : holdsErr (.work (.ret (some e))) = 1 := rfl
      omega
  · intro k e hk
    simp only [State.workTo] at hk ⊢
    rw [getElem?_set_of _ _ _ _ _ hg] at hk
    split at hk
    · rename_i hnk
      subst hnk
      rcases hk with hk | hk
      · simp at hk
        obtain ⟨m, hev⟩ := hret e hk
        exact ⟨m, by rw [hev]; exact List.mem_cons_self _ _⟩
      · simp at hk
    · obtain ⟨m, hm⟩ := hinv.heldFrom k e hk
      exact ⟨m, List.mem_cons_of_mem _ hm⟩
  · intro e he
    obtain ⟨k', m, hm⟩ := hinv.outerFrom e he
    exact ⟨k', m, List.mem_cons_of_mem _ hm⟩
  · intro r hr
    simp [State.workTo, hwrun] at hr
  · intro k e hk
    simp only [State.workTo] at hk ⊢
    rw [hfg] at hk
    obtain ⟨m, hm⟩ := hinv.guardFrom k e hk
    exact ⟨m, List.mem_cons_of_mem _ hm⟩

theorem firstGuard_cons_of_some {t : List Event} {g : Nat × Err} (ev : Event)
    (h : firstGuard t = some g) : firstGuard (ev :: t) = some g := by
  simp [firstGuard, h]

/-- A goroutine that has not ended keeps the wait group above zero, so `Run`
is still waiting. -/
theorem run_wait_of_alive {i : Ingester} {s : State} {n : Nat} {g : GoPc}
    (hinv : Inv i s) (hp : s.panicked = false)
    (hg : s.goroutines[n]? = some g) (ha : alive g = 1) :
    s.run = .wait ∧ 1 ≤ s.wg ∧ int32Of (s.wg - 1) = s.wg - 1 := by
  have h2 := hinv.wgCount hp
  have h3 := wsum_le alive _ _ _ hg
  refine ⟨?_, by omega, ?_⟩
  · cases hr : s.run with
    | wait => rfl
    | returned r =>
      have h1 := (hinv.returned r hr).1
      omega
  · simp only [int32Of]
    omega

theorem inv_step {i : Ingester} {s s' : State} {a : Action}
    (hinv : Inv i s) (h : step s a = some s') : Inv i s' := by
  have hp := step_panicked h
  cases a with
  | selectDone n =>
    obtain ⟨_, hg, rfl⟩ := step_selectDone h
    exact inv_workTo (.sawDone n) s.ch hinv hp hg (by simp)
      (by intro t; cases hf : firstGuard t <;> simp [firstGuard, hf])
      (by intro t; simp [closes]) (by intro t; simp [outerErrWrites])
      (by intro t; simp [writeFailed]) (by simp)
  | selectCh n =>
    obtain ⟨hg, h1 | h1⟩ := step_selectCh h
    · obtain ⟨m, rest, _, rfl⟩ := h1
      exact inv_workTo (.pulled n m) rest hinv hp hg (by simp)
        (by intro t; cases hf : firstGuard t <;> simp [firstGuard, hf])
        (by intro t; simp [closes]) (by intro t; simp [outerErrWrites])
        (by intro t; simp [writeFailed]) (by simp)
    · obtain ⟨_, rfl⟩ := h1
      exact inv_workTo (.sawClosed n) s.ch hinv hp hg (by simp)
        (by intro t; cases hf : firstGuard t <;> simp [firstGuard, hf])
        (by intro t; simp [closes]) (by intro t; simp [outerErrWrites])
        (by intro t; simp [writeFailed]) (by simp)
  | write n err =>
    obtain ⟨m, pc', hg, hw, rfl⟩ := step_write h
    cases err with
    | none =>
      simp [work] at hw; subst hw
      exact inv_workTo (.wrote n m none) s.ch hinv hp hg (by simp)
        (by intro t; cases hf : firstGuard t <;> simp [firstGuard, hf])
        (by intro t; simp [closes]) (by intro t; simp [outerErrWrites])
        (by intro t; simp [writeFailed]) (by simp)
    | some e =>
      simp [work] at hw; subst hw
      exact inv_workTo (.wrote n m (some e)) s.ch hinv hp hg (by simp)
        (by intro t; cases hf : firstGuard t <;> simp [firstGuard, hf])
        (by intro t; simp [closes]) (by intro t; simp [outerErrWrites])
        (by intro t; simp [writeFailed]) (by simp)
  | ack n =>
    obtain ⟨m, hg, rfl⟩ := step_ack h
    exact inv_workTo (.acked n m) s.ch hinv hp hg (by simp)
      (by intro t; cases hf : firstGuard t <;> simp [firstGuard, hf])
      (by intro t; simp [closes]) (by intro t; simp [outerErrWrites])
      (by intro t; simp [writeFailed]) (by simp)
  | onceDo n =>
    rcases step_onceDo h with ⟨hg, rfl⟩ | ⟨err, hg, h1⟩
    · have hset := fun f => wsum_set f s.goroutines n _ .deferred hg
      have ha := hset alive
      have ho := hset inOnce
      have hh := hset holdsErr
      simp only [alive, inOnce, holdsErr] at ha ho hh
      have hw := (run_wait_of_alive hinv hp hg rfl).1
      refine ⟨hinv.srcErr, ?_, ?_, ?_, ?_, ?_, ?_, ?_, ?_, ?_, ?_, ?_⟩
      · intro h'; simp [hp] at h'
      · intro _; have := hinv.wgCount hp; simp only; omega
      · intro h'
        obtain ⟨h1, h2, h3, h4⟩ := hinv.fresh h'
        exact ⟨h1, h2, by simp only; omega, h4⟩
      · intro h'
        obtain ⟨h1, h2, h3, h4⟩ := hinv.running h'
        exact ⟨h1, h2, by simp only; omega, h4⟩
      · intro h'
        obtain ⟨h1, h3, h4⟩ := hinv.complete h'
        exact ⟨h1, by simp only; omega, h4⟩
      · intro k e hk
        simp only at hk
        rw [getElem?_set_of _ _ _ _ _ hg] at hk
        split at hk
        · simp at hk
        · exact hinv.guard k e hk
      · intro hf
        rcases hinv.failed hf with h2 | h2
        · exact Or.inl h2
        · right; simp only; omega
      · intro k e hk
        simp only at hk
        rw [getElem?_set_of _ _ _ _ _ hg] at hk
        split at hk
        · simp at hk
        · exact hinv.heldFrom k e hk
      · exact hinv.outerFrom
      · intro r hr; simp [hw] at hr
      · exact hinv.guardFrom
    · have hw := (run_wait_of_alive hinv hp hg rfl).1
      rcases h1 with ⟨hf, hd, _⟩ | ⟨hf, hd, rfl⟩ | ⟨hc, rfl⟩
      · have := (hinv.fresh hf).1
        rw [hd] at this; cases this
      · have hset := fun f => wsum_set f s.goroutines n _ (.once err) hg
        have ha := hset alive
        have ho := hset inOnce
        have hh := hset holdsErr
        simp only [alive, inOnce, holdsErr] at ha ho hh
        obtain ⟨h1, h2, h3, h4, h5, h6⟩ := hinv.fresh hf
        refine ⟨hinv.srcErr, ?_, ?_, ?_, ?_, ?_, ?_, ?_, ?_, ?_, ?_, ?_⟩
        · intro h'; simp [hp] at h'
        · intro _; have := hinv.wgCount hp; simp only; omega
        · intro h'; simp at h'
        · intro _
          refine ⟨rfl, h2, by simp only; omega, ?_, ?_⟩
          · simp [closes, List.countP_cons] at h5 ⊢; exact h5
          · simp [outerErrWrites, List.countP_cons] at h6 ⊢; exact h6
        · intro h'; simp at h'
        · intro k e hk
          simp only at hk ⊢
          rw [getElem?_set_of _ _ _ _ _ hg] at hk
          split at hk
          · rename_i hnk
            simp at hk
            subst hnk; subst hk
            simp [firstGuard, h4]
          · have := hinv.guard k e hk
            rw [h4] at this; cases this
        · intro _; left; simp
        · intro k e hk
          simp only at hk ⊢
          rw [getElem?_set_of _ _ _ _ _ hg] at hk
          split at hk
          · rename_i hnk
            simp at hk
            subst hnk; subst hk
            obtain ⟨m, hm⟩ := hinv.heldFrom n err (Or.inl hg)
            exact ⟨m, List.mem_cons_of_mem _ hm⟩
          · obtain ⟨m, hm⟩ := hinv.heldFrom k e hk
            exact ⟨m, List.mem_cons_of_mem _ hm⟩
        · intro e he
          simp only at he
          rw [h2] at he; cases he
        · intro r hr; simp [hw] at hr
        · intro k e hk
          simp [firstGuard, h4] at hk
          obtain ⟨rfl, rfl⟩ := hk
          obtain ⟨m, hm⟩ := hinv.heldFrom n err (Or.inl hg)
          exact ⟨m, List.mem_cons_of_mem _ hm⟩
      · have hset := fun f => wsum_set f s.goroutines n _ .deferred hg
        have ha := hset alive
        have ho := hset inOnce
        have hh := hset holdsErr
        simp only [alive, inOnce, holdsErr] at ha ho hh
        obtain ⟨h1, h3, h4, h5, k0, e0, h6, h7⟩ := hinv.complete hc
        refine ⟨hinv.srcErr, ?_, ?_, ?_, ?_, ?_, ?_, ?_, ?_, ?_, ?_, ?_⟩
        · intro h'; simp [hp] at h'
        · intro _; have := hinv.wgCount hp; simp only; omega
        · intro h'; simp [hc] at h'
        · intro h'; simp [hc] at h'
        · intro _
          refine ⟨h1, by simp only; omega, ?_, ?_, k0, e0, h6, firstGuard_cons_of_some _ h7⟩
          · simp [closes, List.countP_cons] at h4 ⊢; exact h4
          · simp [outerErrWrites, List.countP_cons] at h5 ⊢; exact h5
        · intro k e hk
          simp only at hk ⊢
          rw [getElem?_set_of _ _ _ _ _ hg] at hk
          split at hk
          · simp at hk
          · exact firstGuard_cons_of_some _ (hinv.guard k e hk)
        · intro _; left; simp [hc]
        · intro k e hk
          simp only at hk ⊢
          rw [getElem?_set_of _ _ _ _ _ hg] at hk
          split at hk
          · simp at hk
          · obtain ⟨m, hm⟩ := hinv.heldFrom k e hk
            exact ⟨m, List.mem_cons_of_mem _ hm⟩
        · intro e he
          obtain ⟨k', m, hm⟩ := hinv.outerFrom e he
          exact ⟨k', m, List.mem_cons_of_mem _ hm⟩
        · intro r hr; simp [hw] at hr
        · intro k e hk
          simp only at hk
          rw [firstGuard_cons_of_some _ h7] at hk
          obtain ⟨m, hm⟩ := hinv.guardFrom k0 e0 h7
          cases hk
          exact ⟨m, List.mem_cons_of_mem _ hm⟩
  | setOuterErr n =>
    obtain ⟨err, hg, rfl⟩ := step_setOuterErr h
    have hw := (run_wait_of_alive hinv hp hg rfl).1
    have hset := fun f => wsum_set f s.goroutines n _ .deferred hg
    have ha := hset alive
    have ho := hset inOnce
    have hh := hset holdsErr
    simp only [alive, inOnce, holdsErr] at ha ho hh
    have hrun : s.once = .running := by
      cases hc : s.once with
      | fresh => have := (hinv.fresh hc).2.2.1; omega
      | running => rfl
      | complete => have := (hinv.complete hc).2.1; omega
    obtain ⟨h1, h2, h3, h4, h5⟩ := hinv.running hrun
    have hfg := hinv.guard n err hg
    refine ⟨hinv.srcErr, ?_, ?_, ?_, ?_, ?_, ?_, ?_, ?_, ?_, ?_, ?_⟩
    · intro h'; simp [hp] at h'
    · intro _; have := hinv.wgCount hp; simp only; omega
    · intro h'; simp at h'
    · intro h'; simp at h'
    · intro _
      refine ⟨h1, by simp only; omega, ?_, ?_, n, err, rfl, firstGuard_cons_of_some _ hfg⟩
      · simp [closes, List.countP_cons] at h4 ⊢; exact h4
      · simp [outerErrWrites, List.countP_cons] at h5 ⊢; exact h5
    · intro k e hk
      simp only at hk ⊢
      rw [getElem?_set_of _ _ _ _ _ hg] at hk
      split at hk
      · simp at hk
      · exact firstGuard_cons_of_some _ (hinv.guard k e hk)
    · intro _; left; simp
    · intro k e hk
      simp only at hk ⊢
      rw [getElem?_set_of _ _ _ _ _ hg] at hk
      split at hk
      · simp at hk
      · obtain ⟨m, hm⟩ := hinv.heldFrom k e hk
        exact ⟨m, List.mem_cons_of_mem _ hm⟩
    · intro e he
      simp only at he
      cases he
      obtain ⟨m, hm⟩ := hinv.heldFrom n err (Or.inr hg)
      exact ⟨n, m, List.mem_cons_of_mem _ hm⟩
    · intro r hr; simp [hw] at hr
    · intro k e hk
      simp only at hk
      rw [firstGuard_cons_of_some _ hfg] at hk
      obtain ⟨m, hm⟩ := hinv.guardFrom n err hfg
      cases hk
      exact ⟨m, List.mem_cons_of_mem _ hm⟩
  | wgDone n =>
    obtain ⟨hg, h1⟩ := step_wgDone h
    obtain ⟨hw, hwg, h32⟩ := run_wait_of_alive hinv hp hg rfl
    rw [h32] at h1
    rcases h1 with ⟨hneg, _⟩ | ⟨_, rfl⟩
    · omega
    · have hset := fun f => wsum_set f s.goroutines n _ .exited hg
      have ha := hset alive
      have ho := hset inOnce
      have hh := hset holdsErr
      simp only [alive, inOnce, holdsErr] at ha ho hh
      refine ⟨hinv.srcErr, ?_, ?_, ?_, ?_, ?_, ?_, ?_, ?_, ?_, ?_, ?_⟩
      · intro h'; simp [hp] at h'
      · intro _; have := hinv.wgCount hp; simp only; omega
      · intro h'
        obtain ⟨h1, h2, h3, h4, h5, h6⟩ := hinv.fresh h'
        refine ⟨h1, h2, by simp only; omega, ?_, ?_, ?_⟩
        · simp [firstGuard, h4]
        · simp [closes, List.countP_cons] at h5 ⊢; exact h5
        · simp [outerErrWrites, List.countP_cons] at h6 ⊢; exact h6
      · intro h'
        obtain ⟨h1, h2, h3, h4, h5⟩ := hinv.running h'
        refine ⟨h1, h2, by simp only; omega, ?_, ?_⟩
        · simp [closes, List.countP_cons] at h4 ⊢; exact h4
        · simp [outerErrWrites, List.countP_cons] at h5 ⊢; exact h5
      · intro h'
        obtain ⟨h1, h3, h4, h5, k0, e0, h6, h7⟩ := hinv.complete h'
        refine ⟨h1, by simp only; omega, ?_, ?_, k0, e0, h6, firstGuard_cons_of_some _ h7⟩
        · simp [closes, List.countP_cons] at h4 ⊢; exact h4
        · simp [outerErrWrites, List.countP_cons] at h5 ⊢; exact h5
      · intro k e hk
        simp only at hk ⊢
        rw [getElem?_set_of _ _ _ _ _ hg] at hk
        split at hk
        · simp at hk
        · exact firstGuard_cons_of_some _ (hinv.guard k e hk)
      · intro hf
        have hf' : writeFailed s.trace = true := by simpa [writeFailed] using hf
        rcases hinv.failed hf' with h2 | h2
        · exact Or.inl h2
        · right; simp only; omega
      · intro k e hk
        simp only at hk ⊢
        rw [getElem?_set_of _ _ _ _ _ hg] at hk
        split at hk
        · simp at hk
        · obtain ⟨m, hm⟩ := hinv.heldFrom k e hk
          exact ⟨m, List.mem_cons_of_mem _ hm⟩
      · intro e he
        obtain ⟨k', m, hm⟩ := hinv.outerFrom e he
        exact ⟨k', m, List.mem_cons_of_mem _ hm⟩
      · intro r hr; simp [hw] at hr
      · intro k e hk
        have hfg' : firstGuard (Event.exited n :: s.trace) = firstGuard s.trace := by
          cases hf : firstGuard s.trace <;> simp [firstGuard, hf]
        simp only at hk
        rw [hfg'] at hk
        obtain ⟨m, hm⟩ := hinv.guardFrom k e hk
        exact ⟨m, List.mem_cons_of_mem _ hm⟩
  | wait =>
    obtain ⟨hw, hwg, rfl⟩ := step_wait h
    refine ⟨hinv.srcErr, ?_, ?_, ?_, ?_, ?_, ?_, ?_, ?_, ?_, ?_, ?_⟩
    · intro h'; simp [hp] at h'
    · intro _; exact hinv.wgCount hp
    · intro h'
      obtain ⟨h1, h2, h3, h4, h5, h6⟩ := hinv.fresh h'
      refine ⟨h1, h2, h3, ?_, ?_, ?_⟩
      · simp [firstGuard, h4]
      · simp [closes, List.countP_cons] at h5 ⊢; exact h5
      · simp [outerErrWrites, List.countP_cons] at h6 ⊢; exact h6
    · intro h'
      obtain ⟨h1, h2, h3, h4, h5⟩ := hinv.running h'
      refine ⟨h1, h2, h3, ?_, ?_⟩
      · simp [closes, List.countP_cons] at h4 ⊢; exact h4
      · simp [outerErrWrites, List.countP_cons] at h5 ⊢; exact h5
    · intro h'
      obtain ⟨h1, h3, h4, h5, k0, e0, h6, h7⟩ := hinv.complete h'
      refine ⟨h1, h3, ?_, ?_, k0, e0, h6, firstGuard_cons_of_some _ h7⟩
      · simp [closes, List.countP_cons] at h4 ⊢; exact h4
      · simp [outerErrWrites, List.countP_cons] at h5 ⊢; exact h5
    · intro k e hk
      exact firstGuard_cons_of_some _ (hinv.guard k e hk)
    · intro hf
      have hf' : writeFailed s.trace = true := by simpa [writeFailed] using hf
      exact hinv.failed hf'
    · intro k e hk
      obtain ⟨m, hm⟩ := hinv.heldFrom k e hk
      exact ⟨m, List.mem_cons_of_mem _ hm⟩
    · intro e he
      obtain ⟨k', m, hm⟩ := hinv.outerFrom e he
      exact ⟨k', m, List.mem_cons_of_mem _ hm⟩
    · intro r hr
      simp only at hr
      cases hr
      exact ⟨hwg, rfl⟩
    · intro k e hk
      have hfg' : firstGuard (Event.returned (returnValue s.outerErr s.srcErr) :: s.trace)
          = firstGuard s.trace := by
        cases hf : firstGuard s.trace <;> simp [firstGuard, hf]
      simp only at hk
      rw [hfg'] at hk
      obtain ⟨m, hm⟩ := hinv.guardFrom k e hk
      exact ⟨m, List.mem_cons_of_mem _ hm⟩

theorem inv_exec {i : Ingester} (sched : List Action) :
    ∀ {s s' : State}, Inv i s → exec s sched = some s' → Inv i s' := by
  induction sched with
  | nil => intro s s' hinv h; simp [exec] at h; exact h ▸ hinv
  | cons a as ih =>
    intro s s' hinv h
    rw [exec] at h
    cases hs : step s a with
    | none => simp [hs] at h
    | some s1 =>
      simp only [hs] at h
      exact ih (inv_step hinv hs) h

theorem inv_reachable {i : Ingester} {s : State} (h : Reachable i s) : Inv i s := by
  obtain ⟨sched, hs⟩ := h
  exact inv_exec sched (inv_init i) hs

theorem exited_of_wg_zero {i : Ingester} {s : State} (hinv : Inv i s)
    (hp : s.panicked = false) (hwg : s.wg = 0) : ∀ g ∈ s.goroutines, g = .exited := by
  intro g hg
  obtain ⟨n, hlt, hn⟩ := List.getElem_of_mem hg
  have hn' : s.goroutines[n]? = some g := by
    rw [List.getElem?_eq_getElem hlt, hn]
  have h1 := wsum_le alive _ _ _ hn'
  have h2 := hinv.wgCount hp
  cases g with
  | exited => rfl
  | _ => simp only [alive] at h1; omega

/-- Every statement uses up budget: a run executes finitely many statements. -/
theorem budget_step {s s' : State} {a : Action} (h : step s a = some s') :
    s'.budget < s.budget := by
  have hp := step_panicked h
  cases a with
  | selectDone n =>
    obtain ⟨_, hg, rfl⟩ := step_selectDone h
    have := wsum_set stepsLeft s.goroutines n _ (.work (.ret none)) hg
    simp only [stepsLeft] at this
    simp only [State.budget, State.workTo]
    omega
  | selectCh n =>
    obtain ⟨hg, h1 | h1⟩ := step_selectCh h
    · obtain ⟨m, rest, hc, rfl⟩ := h1
      have := wsum_set stepsLeft s.goroutines n _ (.work (.write m)) hg
      simp only [stepsLeft] at this
      simp only [State.budget, State.workTo, hc, List.length_cons]
      omega
    · obtain ⟨_, rfl⟩ := h1
      have := wsum_set stepsLeft s.goroutines n _ (.work (.ret none)) hg
      simp only [stepsLeft] at this
      simp only [State.budget, State.workTo]
      omega
  | write n err =>
    obtain ⟨m, pc', hg, hw, rfl⟩ := step_write h
    have := wsum_set stepsLeft s.goroutines n _ (.work pc') hg
    cases err <;> simp [work] at hw <;> subst hw <;> simp only [stepsLeft] at this <;>
      simp only [State.budget, State.workTo] <;> omega
  | ack n =>
    obtain ⟨m, hg, rfl⟩ := step_ack h
    have := wsum_set stepsLeft s.goroutines n _ (.work .select) hg
    simp only [stepsLeft] at this
    simp only [State.budget, State.workTo]
    omega
  | onceDo n =>
    rcases step_onceDo h with ⟨hg, rfl⟩ | ⟨err, hg, h1⟩
    · have := wsum_set stepsLeft s.goroutines n _ .deferred hg
      simp only [stepsLeft] at this
      simp only [State.budget]
      omega
    · rcases h1 with ⟨_, _, rfl⟩ | ⟨_, _, rfl⟩ | ⟨_, rfl⟩
      · simp [State.budget, hp]
      · have := wsum_set stepsLeft s.goroutines n _ (.once err) hg
        simp only [stepsLeft] at this
        simp only [State.budget]
        omega
      · have := wsum_set stepsLeft s.goroutines n _ .deferred hg
        simp only [stepsLeft] at this
        simp only [State.budget]
        omega
  | setOuterErr n =>
    obtain ⟨err, hg, rfl⟩ := step_setOuterErr h
    have := wsum_set stepsLeft s.goroutines n _ .deferred hg
    simp only [stepsLeft] at this
    simp only [State.budget]
    omega
  | wgDone n =>
    obtain ⟨hg, h1⟩ := step_wgDone h
    rcases h1 with ⟨_, rfl⟩ | ⟨_, rfl⟩
    · simp [State.budget, hp]
    · have := wsum_set stepsLeft s.goroutines n _ .exited hg
      simp only [stepsLeft] at this
      simp only [State.budget]
      omega
  | wait =>
    obtain ⟨hw, _, rfl⟩ := step_wait h
    simp only [State.budget, hw]
    omega

theorem budget_exec (sched : List Action) :
    ∀ {s s' : State}, exec s sched = some s' → s'.budget + sched.length ≤ s.budget := by
  induction sched with
  | nil => intro s s' h; simp [exec] at h; subst h; simp
  | cons a as ih =>
    intro s s' h
    rw [exec] at h
    cases hs : step s a with
    | none => simp [hs] at h
    | some s1 =>
      simp only [hs] at h
      have h1 := ih h
      have h2 := budget_step hs
      simp only [List.length_cons]
      omega

/-- Every run can be continued until no goroutine can move any more. -/
theorem exists_halted : ∀ (b : Nat) (s : State), s.budget ≤ b →
    ∃ sched s', exec s sched = some s' ∧ Halted s' := by
  intro b
  induction b with
  | zero =>
    intro s hb
    refine ⟨[], s, rfl, ?_⟩
    intro a
    cases hs : step s a with
    | none => rfl
    | some s1 => have := budget_step hs; omega
  | succ b ih =>
    intro s hb
    by_cases hh : Halted s
    · exact ⟨[], s, rfl, hh⟩
    · simp only [Halted, not_forall] at hh
      obtain ⟨a, ha⟩ := hh
      cases hs : step s a with
      | none => exact absurd hs ha
      | some s1 =>
        have := budget_step hs
        obtain ⟨sched, s', h1, h2⟩ := ih s1 (by omega)
        exact ⟨a :: sched, s', by simp [exec, hs, h1], h2⟩

/-- A run that cannot move any more has returned from `Run`. -/
theorem returned_of_halted {i : Ingester} {s : State} (hinv : Inv i s)
    (hn : 0 ≤ i.NumWorkers) (hn2 : i.NumWorkers < 2147483648) (hh : Halted s) :
    ∃ r, s.run = .returned r := by
  have hp : s.panicked = false := by
    cases hpp : s.panicked with
    | false => rfl
    | true =>
      have := hinv.panic hpp
      simp only [int32Of] at this
      omega
  cases hr : s.run with
  | returned r => exact ⟨r, rfl⟩
  | wait =>
    exfalso
    by_cases hwg : s.wg = 0
    · have := hh .wait
      simp [step, hp, hr, hwg] at this
    · have hpos : 0 < wsum alive s.goroutines := by
        have := hinv.wgCount hp
        simp only [Ingester.wgExcess, int32Of] at this
        omega
      obtain ⟨n, g, hg, hag⟩ := wsum_pos _ _ hpos
      cases g with
      | exited => simp [alive] at hag
      | deferred =>
        have := hh (.wgDone n)
        rw [step, if_neg (by simp [hp])] at this
        simp only [hg] at this
        split at this <;> simp at this
      | once e =>
        have := hh (.setOuterErr n)
        simp [step, hp, hg] at this
      | work pc =>
        cases pc with
        | select =>
          have := hh (.selectCh n)
          rw [step, if_neg (by simp [hp])] at this
          simp only [hg] at this
          cases hc : s.ch <;> simp [hc, work] at this
        | write m =>
          have := hh (.write n none)
          simp [step, hp, hg, work] at this
        | ack m =>
          have := hh (.ack n)
          simp [step, hp, hg, work] at this
        | ret r =>
          cases r with
          | none =>
            have := hh (.onceDo n)
            simp [step, hp, hg] at this
          | some e =>
            cases ho : s.once with
            | fresh =>
              have := hh (.onceDo n)
              rw [step, if_neg (by simp [hp])] at this
              simp only [hg, ho] at this
              split at this <;> simp at this
            | complete =>
              have := hh (.onceDo n)
              simp [step, hp, hg, ho] at this
            | running =>
              have h1 := (hinv.running ho).2.2.1
              obtain ⟨k, g', hk, hg'⟩ := wsum_pos inOnce s.goroutines (by omega)
              cases g' with
              | once e' =>
                have := hh (.setOuterErr k)
                simp [step, hp, hk] at this
              | _ => simp [inOnce] at hg'

theorem writeFailed_of_mem {t : List Event} {n : Nat} {m : SourcePayload} {e : Err}
    (h : Event.wrote n m (some e) ∈ t) : writeFailed t = true := by
  simp only [writeFailed, List.any_eq_true]
  exact ⟨_, h, rfl⟩

/-- The only statement that assigns `outerErr` is line 52. -/
theorem step_outerErr {s s' : State} {a : Action} (h : step s a = some s') :
    s'.outerErr = s.outerErr ∨
      ∃ (n : Nat) (err : Err),
        s.goroutines[n]? = some (.once err) ∧ s'.outerErr = some err := by
  cases a with
  | selectDone n => obtain ⟨_, _, rfl⟩ := step_selectDone h; exact Or.inl rfl
  | selectCh n =>
    obtain ⟨_, h1 | h1⟩ := step_selectCh h
    · obtain ⟨m, rest, _, rfl⟩ := h1; exact Or.inl rfl
    · obtain ⟨_, rfl⟩ := h1; exact Or.inl rfl
  | write n err => obtain ⟨m, pc', _, _, rfl⟩ := step_write h; exact Or.inl rfl
  | ack n => obtain ⟨m, _, rfl⟩ := step_ack h; exact Or.inl rfl
  | onceDo n =>
    rcases step_onceDo h with ⟨_, rfl⟩ | ⟨err, _, ⟨_, _, rfl⟩ | ⟨_, _, rfl⟩ | ⟨_, rfl⟩⟩ <;>
      exact Or.inl rfl
  | setOuterErr n =>
    obtain ⟨err, hg, rfl⟩ := step_setOuterErr h
    exact Or.inr ⟨n, err, hg, rfl⟩
  | wgDone n =>
    obtain ⟨_, ⟨_, rfl⟩ | ⟨_, rfl⟩⟩ := step_wgDone h <;> exact Or.inl rfl
  | wait => obtain ⟨_, _, rfl⟩ := step_wait h; exact Or.inl rfl

/-- The channel `done` is never reopened. -/
theorem step_done {s s' : State} {a : Action} (h : step s a = some s')
    (hd : s.done = true) : s'.done = true := by
  cases a with
  | selectDone n => obtain ⟨_, _, rfl⟩ := step_selectDone h; exact hd
  | selectCh n =>
    obtain ⟨_, h1 | h1⟩ := step_selectCh h
    · obtain ⟨m, rest, _, rfl⟩ := h1; exact hd
    · obtain ⟨_, rfl⟩ := h1; exact hd
  | write n err => obtain ⟨m, pc', _, _, rfl⟩ := step_write h; exact hd
  | ack n => obtain ⟨m, _, rfl⟩ := step_ack h; exact hd
  | onceDo n =>
    rcases step_onceDo h with ⟨_, rfl⟩ | ⟨err, _, ⟨_, _, rfl⟩ | ⟨_, _, rfl⟩ | ⟨_, rfl⟩⟩
    · exact hd
    · exact hd
    · rfl
    · exact hd
  | setOuterErr n => obtain ⟨err, hg, rfl⟩ := step_setOuterErr h; exact hd
  | wgDone n =>
    obtain ⟨_, ⟨_, rfl⟩ | ⟨_, rfl⟩⟩ := step_wgDone h <;> exact hd
  | wait => obtain ⟨_, _, rfl⟩ := step_wait h; exact hd

theorem panic_at_start {i : Ingester} {sched : List Action} {s : State}
    (h : exec i.Run sched = some s) (hpp : s.panicked = true) :
    int32Of i.NumWorkers < 0 ∧ sched = [] ∧ s = i.Run := by
  have hneg := (inv_exec sched (inv_init i) h).panic hpp
  refine ⟨hneg, ?_⟩
  cases sched with
  | nil =>
    simp [exec] at h
    exact ⟨rfl, h.symm⟩
  | cons a as =>
    exfalso
    rw [exec] at h
    cases hs : step i.Run a with
    | none => simp [hs] at h
    | some s1 =>
      have := step_panicked hs
      simp [Ingester.Run, hneg] at this

theorem not_panicked_of_range {i : Ingester} {sched : List Action} {s : State}
    (h : exec i.Run sched = some s) (hn : 0 ≤ i.NumWorkers)
    (hn2 : i.NumWorkers < 2147483648) : s.panicked = false := by
  cases hpp : s.panicked with
  | false => rfl
  | true =>
    have := (panic_at_start h hpp).1
    simp only [int32Of] at this
    omega

theorem not_panicked_of_returned {i : Ingester} {sched : List Action} {s : State}
    (h : exec i.Run sched = some s) {r : Option Err} (hr : s.run = .returned r) :
    s.panicked = false := by
  cases hpp : s.panicked with
  | false => rfl
  | true =>
    obtain ⟨_, _, rfl⟩ := panic_at_start h hpp
    simp [Ingester.Run] at hr

theorem not_panicked_of_goroutine {i : Ingester} {sched : List Action} {s : State}
    (h : exec i.Run sched = some s) {n : Nat} {g : GoPc} (hg : s.goroutines[n]? = some g) :
    s.panicked = false := by
  cases hpp : s.panicked with
  | false => rfl
  | true =>
    exfalso
    obtain ⟨hneg, _, rfl⟩ := panic_at_start h hpp
    simp [Ingester.Run, hneg] at hg

/-- Claim C5, as stated, fails: `Run` does not check `NumWorkers`.  With
`NumWorkers = -1` the statement `wg.Add(i.NumWorkers)` panics (negative
WaitGroup counter) before any goroutine is started, and with
`NumWorkers = 2^31` the 32-bit counter of the WaitGroup is negative and
`wg.Add` panics as well.  No worker is left running (none was started), no
statement can follow, and `Run` never returns, neither a worker error nor
`Source.Error()` nor `nil`. -/
theorem Run_panics_on_bad_count :
    negativeCount.Run.panicked = true ∧ overflowCount.Run.panicked = true ∧
    negativeCount.Run.goroutines = [] ∧ overflowCount.Run.goroutines = [] ∧
    (∀ sched s, exec negativeCount.Run sched = some s →
      sched = [] ∧ ∀ r, s.run ≠ .returned r) ∧
    (∀ sched s, exec overflowCount.Run sched = some s →
      sched = [] ∧ ∀ r, s.run ≠ .returned r) := by
  refine ⟨by decide, by decide, by decide, by decide, ?_, ?_⟩
  · intro sched s h
    cases sched with
    | nil =>
      simp [exec] at h
      subst h
      exact ⟨rfl, fun r hr => by simp [Ingester.Run] at hr⟩
    | cons a as =>
      exfalso
      rw [exec] at h
      cases hs : step negativeCount.Run a with
      | none => simp [hs] at h
      | some s1 =>
        have := step_panicked hs
        revert this
        decide
  · intro sched s h
    cases sched with
    | nil =>
      simp [exec] at h
      subst h
      exact ⟨rfl, fun r hr => by simp [Ingester.Run] at hr⟩
    | cons a as =>
      exfalso
      rw [exec] at h
      cases hs : step overflowCount.Run a with
      | none => simp [hs] at h
      | some s1 =>
        have := step_panicked hs
        revert this
        decide

/-- Claim C5, amended: for an `Ingester` with `0 ≤ NumWorkers < 2^31`, in
every run of `Ingester.Run`, (a) nothing panics, and once every goroutine has
exited and `Run` is at `wg.Wait()`, the next statement of `Run` returns: the
captured `outerErr` when it is not `nil`, otherwise `Source.Error()`; (b)
whenever `Run` has returned `r`, all workers have exited, and if some `Write`
returned an error then `r` is the captured error, a non-nil error returned by
one of the failed `Write` calls (whatever `Source.Error()` is), while if no
`Write` failed then nothing was captured and `r` is `Source.Error()` (`nil`
for a source that closed gracefully); (c) the run executes at most `budget`
statements, a run in which no goroutine can move any more has returned from
`Run`, and every run can be continued to the return of `Run`. -/
theorem Run_result (i : Ingester) (sched : List Action) (s : State)
    (hn : 0 ≤ i.NumWorkers) (hn2 : i.NumWorkers < 2147483648)
    (h : exec i.Run sched = some s) :
    s.panicked = false ∧
    ((∀ g ∈ s.goroutines, g = .exited) → s.run = .wait →
      ∃ s', step s .wait = some s' ∧
        s'.run = .returned (returnValue s.outerErr i.Source.Error)) ∧
    (∀ r, s.run = .returned r →
      (∀ g ∈ s.goroutines, g = .exited) ∧
      (writeFailed s.trace = true →
        ∃ n m e, r = some e ∧ s.outerErr = some e ∧ Event.wrote n m (some e) ∈ s.trace) ∧
      (writeFailed s.trace = false → s.outerErr = none ∧ r = i.Source.Error)) ∧
    sched.length ≤ i.Run.budget ∧
    (Halted s → ∃ r, s.run = .returned r) ∧
    (∃ sched' s', exec s sched' = some s' ∧ ∃ r, s'.run = .returned r) := by
  have hinv := inv_exec sched (inv_init i) h
  have hp := not_panicked_of_range h hn hn2
  have hex0 : i.wgExcess = 0 := by
    simp only [Ingester.wgExcess, int32Of]
    omega
  refine ⟨hp, ?_, ?_, ?_, fun hh => returned_of_halted hinv hn hn2 hh, ?_⟩
  rotate_left 3
  · obtain ⟨sched', s', h1, h2⟩ := exists_halted s.budget s (Nat.le_refl _)
    exact ⟨sched', s', h1, returned_of_halted (inv_exec sched' hinv h1) hn hn2 h2⟩
  · intro hall hw
    have hwg : s.wg = 0 := by
      rw [(hinv.wgCount hp).1, wsum_eq_zero alive _ (fun g hg => by rw [hall g hg]; rfl), hex0]
      rfl
    refine ⟨_, by simp only [step, hp, hw, hwg]; rfl, ?_⟩
    show RunPc.returned _ = RunPc.returned _
    rw [hinv.srcErr]
  · intro r hr
    obtain ⟨hwg, hrv⟩ := hinv.returned r hr
    have hex := exited_of_wg_zero hinv hp hwg
    have hno : ∀ f : GoPc → Nat, f .exited = 0 → wsum f s.goroutines = 0 :=
      fun f hf => wsum_eq_zero f _ (fun g hg => by rw [hex g hg]; exact hf)
    refine ⟨hex, ?_, ?_⟩
    · intro hf
      have hcomp : s.once = .complete := by
        cases ho : s.once with
        | complete => rfl
        | running =>
          have := (hinv.running ho).2.2.1
          have := hno inOnce rfl
          omega
        | fresh =>
          rcases hinv.failed hf with h1 | h1
          · exact absurd ho h1
          · have := hno holdsErr rfl
            omega
      obtain ⟨_, _, _, _, n, e, he, _⟩ := hinv.complete hcomp
      obtain ⟨n', m, hm⟩ := hinv.outerFrom e he
      refine ⟨n', m, e, ?_, he, hm⟩
      rw [hrv, he]; rfl
    · intro hf
      have hnone : s.outerErr = none := by
        cases he : s.outerErr with
        | none => rfl
        | some e =>
          obtain ⟨n', m, hm⟩ := hinv.outerFrom e he
          rw [writeFailed_of_mem hm] at hf
          cases hf
      refine ⟨hnone, ?_⟩
      rw [hrv, hnone, hinv.srcErr]; rfl
  · have := budget_exec sched h
    omega

/-- Witness for claim C5: scenario B of the specification run to the end.
`Run` returns the error of the failed write and all workers have exited. -/
theorem Run_result_witness :
    ∃ s, exec scenarioB.Run scheduleB = some s ∧
      s.run = .returned (some "write timeout") ∧ writeFailed s.trace = true ∧
      (∀ g ∈ s.goroutines, g = .exited) :=
  ⟨_, rfl, by decide, by decide,
    ((Run_result scenarioB scheduleB _ (by decide) (by decide) rfl).2.2.1 _ rfl).1⟩

/-- Claim C6: in every run of `Ingester.Run`, however many workers fail,
`close(done)` is executed at most once and `outerErr` is assigned at most
once, no statement of a goroutine panics (the only panic is `wg.Add` of a
count that is negative in the 32-bit counter of the WaitGroup, before any
goroutine is started and before anything is closed or assigned: never a
second `close(done)`), the first worker that reached the guard `once.Do`
reached it with the error one of its own `Write` calls returned, that error
is the only value `outerErr` ever has and the error `Run` returns, and no
statement of any goroutine changes `outerErr` once it is set: the errors of
workers that fail later are dropped. -/
theorem guard_taken_once (i : Ingester) (sched : List Action) (s : State)
    (h : exec i.Run sched = some s) :
    closes s.trace ≤ 1 ∧ outerErrWrites s.trace ≤ 1 ∧
    (s.panicked = true →
      int32Of i.NumWorkers < 0 ∧ sched = [] ∧ closes s.trace = 0 ∧ outerErrWrites s.trace = 0) ∧
    (∀ n e, firstGuard s.trace = some (n, e) →
      (∃ m, Event.wrote n m (some e) ∈ s.trace) ∧
      (∀ e', s.outerErr = some e' → e' = e) ∧ (∀ r, s.run = .returned r → r = some e)) ∧
    (∀ e a s', s.outerErr = some e → step s a = some s' → s'.outerErr = some e) := by
  have hinv := inv_exec sched (inv_init i) h
  have hpanic : s.panicked = true →
      int32Of i.NumWorkers < 0 ∧ sched = [] ∧ closes s.trace = 0 ∧
        outerErrWrites s.trace = 0 := by
    intro hpp
    obtain ⟨hneg, hs, rfl⟩ := panic_at_start h hpp
    exact ⟨hneg, hs, rfl, rfl⟩
  refine ⟨?_, ?_, hpanic, ?_, ?_⟩
  · cases ho : s.once with
    | fresh => have := (hinv.fresh ho).2.2.2.2.1; omega
    | running => have := (hinv.running ho).2.2.2.1; omega
    | complete => have := (hinv.complete ho).2.2.1; omega
  · cases ho : s.once with
    | fresh => have := (hinv.fresh ho).2.2.2.2.2; omega
    | running => have := (hinv.running ho).2.2.2.2; omega
    | complete => have := (hinv.complete ho).2.2.2.1; omega
  · intro n e hfg
    refine ⟨hinv.guardFrom n e hfg, ?_, ?_⟩
    · intro e' he'
      cases ho : s.once with
      | fresh => have := (hinv.fresh ho).2.1; rw [this] at he'; cases he'
      | running => have := (hinv.running ho).2.1; rw [this] at he'; cases he'
      | complete =>
        obtain ⟨_, _, _, _, n0, e0, h1, h2⟩ := hinv.complete ho
        rw [h1] at he'; rw [h2] at hfg
        cases he'; cases hfg; rfl
    · intro r hr
      have hp := not_panicked_of_returned h hr
      obtain ⟨hwg, hrv⟩ := hinv.returned r hr
      have hex := exited_of_wg_zero hinv hp hwg
      cases ho : s.once with
      | fresh => have := (hinv.fresh ho).2.2.2.1; rw [this] at hfg; cases hfg
      | running =>
        have h1 := (hinv.running ho).2.2.1
        have h2 := wsum_eq_zero inOnce _ (fun g hg => by rw [hex g hg]; rfl)
        omega
      | complete =>
        obtain ⟨_, _, _, _, n0, e0, h1, h2⟩ := hinv.complete ho
        rw [h2] at hfg
        cases hfg
        rw [hrv, h1]; rfl
  · intro e a s' he hs
    rcases step_outerErr hs with h1 | ⟨n, err, hg, _⟩
    · rw [h1, he]
    · exfalso
      have hp := step_panicked hs
      have h1 := wsum_le inOnce _ _ _ hg
      simp only [inOnce] at h1
      cases ho : s.once with
      | fresh => have := (hinv.fresh ho).2.1; rw [this] at he; cases he
      | running => have := (hinv.running ho).2.1; rw [this] at he; cases he
      | complete => have := (hinv.complete ho).2.1; omega

/-- Witness for claim C6: both writes fail, worker 1 is first at the
guard and `Run` returns its error. -/
theorem guard_taken_once_witness :
    ∃ s, exec twoWorkers.Run scheduleBothFail = some s ∧
      firstGuard s.trace = some (1, "write timeout") ∧
      s.run = .returned (some "write timeout") ∧
      closes s.trace ≤ 1 ∧ outerErrWrites s.trace ≤ 1 :=
  ⟨_, rfl, by decide, by decide,
    (guard_taken_once twoWorkers scheduleBothFail _ rfl).1,
    (guard_taken_once twoWorkers scheduleBothFail _ rfl).2.1⟩

/-- Claim C7, as stated, fails: with two workers and two payloads, after the
write of worker 0 has failed and worker 0 has closed `done`, worker 1 is at
its `select` with `done` closed and payload 2 on the channel; its `select`
may take the case `<-ch`, worker 1 then holds payload 2 instead of leaving,
and the run goes on to write and acknowledge payload 2 after the
cancellation. -/
theorem cancelled_worker_still_pulls :
    ¬ ExitsOnceCancelled twoWorkers ∧
    (exec twoWorkers.Run (scheduleCancel ++ [.selectCh 1, .write 1 none, .ack 1])).map
        State.trace =
      some [.acked 1 ⟨2⟩, .wrote 1 ⟨2⟩ none, .pulled 1 ⟨2⟩, .closedDone 0 "write timeout",
            .wrote 0 ⟨1⟩ (some "write timeout"), .pulled 0 ⟨1⟩] := by
  constructor
  · intro h
    have hex : ∃ s s', exec twoWorkers.Run scheduleCancel = some s ∧ s.done = true ∧
        s.goroutines[1]? = some (.work .select) ∧ step s (.selectCh 1) = some s' ∧
        s'.goroutines[1]? = some (.work (.write ⟨2⟩)) := ⟨_, _, rfl, rfl, rfl, rfl, rfl⟩
    obtain ⟨s, s', h1, h2, h3, h4, h5⟩ := hex
    have h6 := (h scheduleCancel s 1 (.selectCh 1) s' h1 h2 h3 (Or.inr rfl) h4).1
    rw [h5] at h6
    cases h6
  · decide

/-- Claim C7, amended: once `done` is closed it stays closed, and a worker at
its `select` can always leave: the case `<-done` is ready, and taking it
makes `work` return `nil` with the channel of the source untouched and
nothing written or acknowledged (the trace only gains the worker seeing
`done`).  The case `<-ch` is ready as well: on the closed, empty channel it
also returns `nil`, but when a payload is available it receives that payload,
and the worker's next statement writes it. -/
theorem cancelled_worker_can_exit (i : Ingester) (sched : List Action) (s : State) (n : Nat)
    (h : exec i.Run sched = some s) (hd : s.done = true)
    (hg : s.goroutines[n]? = some (.work .select)) :
    step s (.selectDone n) = some (s.workTo n (.ret none) (.sawDone n)) ∧
    (s.workTo n (.ret none) (.sawDone n)).ch = s.ch ∧
    (s.workTo n (.ret none) (.sawDone n)).trace = .sawDone n :: s.trace ∧
    (s.workTo n (.ret none) (.sawDone n)).goroutines[n]? = some (.work (.ret none)) ∧
    (∀ a s', step s a = some s' → s'.done = true) ∧
    (s.ch = [] → step s (.selectCh n) = some (s.workTo n (.ret none) (.sawClosed n))) ∧
    (∀ m rest, s.ch = m :: rest →
      step s (.selectCh n) = some { s.workTo n (.write m) (.pulled n m) with ch := rest }) ∧
    (∀ m rest err, s.ch = m :: rest →
      ∃ s2, step { s.workTo n (.write m) (.pulled n m) with ch := rest } (.write n err) = some s2 ∧
        s2.trace = .wrote n m err :: .pulled n m :: s.trace) := by
  have hp := not_panicked_of_goroutine h hg
  refine ⟨?_, rfl, rfl, ?_, fun a s' hs => step_done hs hd, ?_, ?_, ?_⟩
  · simp [step, hp, hg, hd, work]
  · simp only [State.workTo]
    rw [getElem?_set_of _ _ _ _ _ hg]
    simp
  · intro hc
    simp [step, hp, hg, hc, work]
  · intro m rest hc
    simp [step, hp, hg, hc, work]
  · intro m rest err hc
    have hg1 : (s.goroutines.set n (.work (.write m)))[n]? = some (.work (.write m)) := by
      rw [getElem?_set_of _ _ _ _ _ hg]
      simp
    cases err with
    | none =>
      refine ⟨{ s with ch := rest
                       goroutines := (s.goroutines.set n (.work (.write m))).set n
                         (.work (.ack m))
                       trace := .wrote n m none :: .pulled n m :: s.trace }, ?_, rfl⟩
      simp [step, State.workTo, hp, hg1, work]
    | some e =>
      refine ⟨{ s with ch := rest
                       goroutines := (s.goroutines.set n (.work (.write m))).set n
                         (.work (.ret (some e)))
                       trace := .wrote n m (some e) :: .pulled n m :: s.trace }, ?_, rfl⟩
      simp [step, State.workTo, hp, hg1, work]

/-- Witness for the amended claim C7: in the state of the counterexample
worker 1 can leave through the case `<-done`. -/
theorem cancelled_worker_can_exit_witness :
    ∃ s, exec twoWorkers.Run scheduleCancel = some s ∧ s.done = true ∧
      s.goroutines[1]? = some (.work .select) ∧ s.ch = [⟨2⟩] ∧
      step s (.selectDone 1) = some (s.workTo 1 (.ret none) (.sawDone 1)) :=
  ⟨_, rfl, rfl, rfl, rfl,
    (cancelled_worker_can_exit twoWorkers scheduleCancel _ 1 rfl rfl rfl).1⟩

/-- Claim C10: for an `Ingester` with `NumWorkers = 0` and any source, `Run`
can return at once: in the start state, with every payload still on the
channel, `wg.Wait()` passes and `Run` returns `Source.Error()`.  And that is
all a run can do: every schedule is empty or the single statement `wait`, the
channel keeps all the payloads of the source, there is no goroutine, no
payload is ever pulled, written or acknowledged, and a returned value is
`Source.Error()`. -/
theorem Run_no_workers (src : Source) :
    (∃ s', step (Ingester.Run ⟨0, src, by decide⟩) .wait = some s' ∧ s'.run = .returned src.Error ∧
      s'.ch = src.Messages ∧ s'.trace = [.returned src.Error]) ∧
    (∀ sched s, exec (Ingester.Run ⟨0, src, by decide⟩) sched = some s →
      (sched = [] ∨ sched = [.wait]) ∧ s.ch = src.Messages ∧ s.goroutines = [] ∧
      (∀ ev ∈ s.trace, ev.touchesPayload = false) ∧
      (∀ r, s.run = .returned r → r = src.Error)) := by
  have hstep : ∀ a s', step (Ingester.Run ⟨0, src, by decide⟩) a = some s' →
      a = .wait ∧ s' = { Ingester.Run ⟨0, src, by decide⟩ with
        run := .returned src.Error, trace := [.returned src.Error] } := by
    intro a s' hs
    cases a with
    | wait =>
      obtain ⟨_, _, rfl⟩ := step_wait hs
      exact ⟨rfl, rfl⟩
    | selectDone n => have := (step_selectDone hs).2.1; simp [Ingester.Run] at this
    | selectCh n => have := (step_selectCh hs).1; simp [Ingester.Run] at this
    | write n err => obtain ⟨m, pc', this, _⟩ := step_write hs; simp [Ingester.Run] at this
    | ack n => obtain ⟨m, this, _⟩ := step_ack hs; simp [Ingester.Run] at this
    | onceDo n =>
      rcases step_onceDo hs with ⟨this, _⟩ | ⟨err, this, _⟩ <;> simp [Ingester.Run] at this
    | setOuterErr n => obtain ⟨err, this, _⟩ := step_setOuterErr hs; simp [Ingester.Run] at this
    | wgDone n => have := (step_wgDone hs).1; simp [Ingester.Run] at this
  constructor
  · exact ⟨_, rfl, rfl, rfl, rfl⟩
  · intro sched s hs
    cases sched with
    | nil =>
      simp [exec] at hs
      subst hs
      exact ⟨Or.inl rfl, rfl, rfl, by simp [Ingester.Run], by simp [Ingester.Run]⟩
    | cons a as =>
      rw [exec] at hs
      cases h1 : step (Ingester.Run ⟨0, src, by decide⟩) a with
      | none => simp [h1] at hs
      | some s1 =>
        simp only [h1] at hs
        obtain ⟨rfl, rfl⟩ := hstep a s1 h1
        cases as with
        | nil =>
          simp [exec] at hs
          subst hs
          refine ⟨Or.inr rfl, rfl, rfl, ?_, ?_⟩
          · intro ev hev
            simp at hev
            subst hev
            rfl
          · intro r hr
            simp at hr
            exact hr.symm
        | cons b bs =>
          rw [exec] at hs
          cases h2 : step { Ingester.Run ⟨0, src, by decide⟩ with
              run := .returned src.Error, trace := [.returned src.Error] } b with
          | none => simp [h2] at hs
          | some s2 =>
            exfalso
            cases b with
            | wait => have := (step_wait h2).1; simp at this
            | selectDone n => have := (step_selectDone h2).2.1; simp [Ingester.Run] at this
            | selectCh n => have := (step_selectCh h2).1; simp [Ingester.Run] at this
            | write n err =>
              obtain ⟨m, pc', this, _⟩ := step_write h2; simp [Ingester.Run] at this
            | ack n => obtain ⟨m, this, _⟩ := step_ack h2; simp [Ingester.Run] at this
            | onceDo n =>
              rcases step_onceDo h2 with ⟨this, _⟩ | ⟨err, this, _⟩ <;>
                simp [Ingester.Run] at this
            | setOuterErr n =>
              obtain ⟨err, this, _⟩ := step_setOuterErr h2; simp [Ingester.Run] at this
            | wgDone n => have := (step_wgDone h2).1; simp [Ingester.Run] at this

/-- Witness for claim C10: no worker, two payloads on the channel, a
source whose `Error()` is "eof". -/
theorem Run_no_workers_witness :
    ∃ s, exec (Ingester.Run ⟨0, ⟨[⟨1⟩, ⟨2⟩], some "eof"⟩, by decide⟩) [.wait] = some s ∧
      s.run = .returned (some "eof") ∧ s.ch = [⟨1⟩, ⟨2⟩] ∧ s.goroutines = [] :=
  ⟨_, rfl, rfl,
    ((Run_no_workers ⟨[⟨1⟩, ⟨2⟩], some "eof"⟩).2 [.wait] _ rfl).2.1,
    ((Run_no_workers ⟨[⟨1⟩, ⟨2⟩], some "eof"⟩).2 [.wait] _ rfl).2.2.1⟩

theorem workInv_step (pc pc' : WorkPc) (log : WorkLog) (ev : WorkEvent)
    (h : WorkInv pc log) (hs : work pc ev = some pc') : WorkInv pc' (log.record pc ev) := by
  cases pc with
  | select =>
    cases ev <;> simp [work] at hs <;> subst hs <;> simpa [WorkInv, WorkLog.record] using h
  | write m =>
    cases ev with
    | wrote err =>
      cases err with
      | none => simp [work] at hs; subst hs; simpa [WorkInv, WorkLog.record] using h
      | some e =>
        simp [work] at hs; subst hs
        simp only [WorkInv, WorkLog.record] at h ⊢
        exact ⟨m, h.1, by rw [h.2]⟩
    | _ => simp [work] at hs
  | ack m =>
    cases ev <;> simp [work] at hs
    subst hs
    simp only [WorkInv, WorkLog.record] at h ⊢
    simp [h.1, h.2]
  | ret r => cases ev <;> simp [work] at hs

theorem workInv_run (evs : List WorkEvent) :
    ∀ (pc pc' : WorkPc) (log log' : WorkLog), WorkInv pc log →
      workRun pc log evs = some (pc', log') → WorkInv pc' log' := by
  induction evs with
  | nil =>
    intro pc pc' log log' h hr
    simp [workRun] at hr
    rw [← hr.1, ← hr.2]; exact h
  | cons ev evs ih =>
    intro pc pc' log log' h hr
    rw [workRun] at hr
    cases hw : work pc ev with
    | none => simp [hw] at hr
    | some pc1 =>
      simp only [hw] at hr
      exact ih _ _ _ _ (workInv_step _ _ _ _ h hw) hr

theorem workRun_append (evs evs' : List WorkEvent) :
    ∀ (pc : WorkPc) (log : WorkLog),
      workRun pc log (evs ++ evs') =
        (workRun pc log evs).bind (fun p => workRun p.1 p.2 evs') := by
  induction evs with
  | nil => intro pc log; rfl
  | cons ev evs ih =>
    intro pc log
    rw [List.cons_append, workRun, workRun]
    cases hw : work pc ev with
    | none => rfl
    | some pc1 => exact ih _ _

theorem workRun_pullAll (ms : List SourcePayload) (last : WorkEvent) :
    ∀ log : WorkLog,
      workRun .select log (pullAll ms last) =
        workRun .select
          ⟨ms.reverse ++ log.pulled, ms.reverse.map (fun m => (m, none)) ++ log.writes,
            ms.reverse ++ log.acks⟩ [last] := by
  induction ms with
  | nil => intro log; rfl
  | cons m ms ih =>
    intro log
    rw [pullAll, workRun]
    simp only [work]
    rw [workRun]
    simp only [work]
    rw [workRun]
    simp only [work]
    rw [ih]
    simp [WorkLog.record]

/-- Claim C4: one call of `work`, driven from its first statement.
(a) A worker that receives any payloads `ms`, every `Write` returning `nil`,
and then sees `done` closed or the channel closed, returns `nil`, having
written and acknowledged every payload of `ms` in order.  (b) A worker that
receives `ms` with every `Write` returning `nil` and then a payload `m` whose
`Write` returns the error `e`, returns exactly `e`, with `m` pulled and
written but not acknowledged and the payloads of `ms` acknowledged.  (c) At
every `select` the worker reaches, `done` closed or the channel closed makes
it return `nil` with nothing more pulled, written or acknowledged; at every
`Write` it reaches, an error makes it return that error at once.  (d) For
every sequence of events after which the call has returned `r`: every payload
pulled was written exactly once, in order; the payloads acknowledged are
exactly those whose `Write` returned `nil`; if no `Write` failed then `r` is
`nil`; if the `Write` of a payload `m` returned the error `e`, then `r` is
exactly `e`, `m` is the last payload pulled and the last one written, and the
payloads acknowledged are the ones written before `m`; a returned error is
the result of the last `Write`; and the returned call takes no further
event.  (e) A call that has not returned is never stuck: its statement takes
some event. -/
theorem work_contract :
    (∀ (ms : List SourcePayload) (last : WorkEvent), last = .done ∨ last = .closed →
      workRun .select ⟨[], [], []⟩ (pullAll ms last) =
        some (.ret none, ⟨ms.reverse, ms.reverse.map (fun m => (m, none)), ms.reverse⟩)) ∧
    (∀ (ms : List SourcePayload) (m : SourcePayload) (e : Err),
      workRun .select ⟨[], [], []⟩ (pullAll ms (.recv m) ++ [.wrote (some e)]) =
        some (.ret (some e),
          ⟨m :: ms.reverse, (m, some e) :: ms.reverse.map (fun m => (m, none)),
            ms.reverse⟩)) ∧
    (∀ (evs : List WorkEvent) (log : WorkLog) (last : WorkEvent),
      workRun .select ⟨[], [], []⟩ evs = some (.select, log) →
      last = .done ∨ last = .closed →
      workRun .select ⟨[], [], []⟩ (evs ++ [last]) = some (.ret none, log)) ∧
    (∀ (evs : List WorkEvent) (log : WorkLog) (m : SourcePayload) (e : Err),
      workRun .select ⟨[], [], []⟩ evs = some (.write m, log) →
      workRun .select ⟨[], [], []⟩ (evs ++ [.wrote (some e)]) =
        some (.ret (some e), { log with writes := (m, some e) :: log.writes })) ∧
    (∀ (evs : List WorkEvent) (r : Option Err) (log : WorkLog),
      workRun .select ⟨[], [], []⟩ evs = some (.ret r, log) →
      log.writes.map Prod.fst = log.pulled ∧
      log.acks = (log.writes.filter (fun w => w.2.isNone)).map Prod.fst ∧
      ((∀ w ∈ log.writes, w.2 = none) → r = none) ∧
      (∀ m e, (m, some e) ∈ log.writes →
        r = some e ∧ log.writes = (m, some e) :: log.acks.map (fun a => (a, none)) ∧
        log.pulled = m :: log.acks) ∧
      (∀ e, r = some e → ∃ m, log.writes.head? = some (m, some e)) ∧
      (∀ ev, work (.ret r) ev = none)) ∧
    (∀ (evs : List WorkEvent) (pc : WorkPc) (log : WorkLog),
      workRun .select ⟨[], [], []⟩ evs = some (pc, log) → (∀ r, pc ≠ .ret r) →
      ∃ ev pc', work pc ev = some pc') := by
  refine ⟨?_, ?_, ?_, ?_, ?_, ?_⟩
  · intro ms last hl
    rw [workRun_pullAll]
    rcases hl with rfl | rfl <;> simp [workRun, work, WorkLog.record]
  · intro ms m e
    rw [workRun_append, workRun_pullAll]
    simp [workRun, work, WorkLog.record]
  · intro evs log last h hl
    rw [workRun_append, h]
    rcases hl with rfl | rfl <;> rfl
  · intro evs log m e h
    rw [workRun_append, h]
    rfl
  · intro evs r log h
    have hinv : WorkInv (.ret r) log :=
      workInv_run evs _ _ _ _ (by simp [WorkInv]) h
    have hfilter : ∀ ms : List SourcePayload,
        ((ms.map (fun a => ((a, none) : SourcePayload × Option Err))).filter
          (fun w => w.2.isNone)).map Prod.fst = ms := by
      intro ms
      induction ms with
      | nil => rfl
      | cons a ms ih => simp [ih]
    have hfst : ∀ ms : List SourcePayload,
        (ms.map (fun a => ((a, none) : SourcePayload × Option Err))).map Prod.fst = ms := by
      intro ms
      induction ms with
      | nil => rfl
      | cons a ms ih => simp [ih]
    have hmem : ∀ (ms : List SourcePayload) (m : SourcePayload) (e : Err),
        ((m, some e) : SourcePayload × Option Err) ∉ ms.map (fun a => (a, none)) := by
      intro ms m e hm
      simp at hm
    cases r with
    | none =>
      simp only [WorkInv] at hinv
      refine ⟨?_, ?_, fun _ => rfl, ?_, ?_, ?_⟩
      · rw [hinv.2, hinv.1, hfst]
      · rw [hinv.2, hfilter]
      · intro m e hm
        rw [hinv.2] at hm
        exact absurd hm (hmem _ _ _)
      · intro e he; cases he
      · intro ev; cases ev <;> rfl
    | some e =>
      simp only [WorkInv] at hinv
      obtain ⟨m, hp, hw⟩ := hinv
      refine ⟨?_, ?_, ?_, ?_, ?_, ?_⟩
      · rw [hw, hp, List.map_cons, hfst]
      · rw [hw]; simp [hfilter]
      · intro hall
        have := hall (m, some e) (by rw [hw]; exact List.mem_cons_self _ _)
        simp at this
      · intro m' e' hm
        rw [hw] at hm
        rcases List.mem_cons.1 hm with h1 | h1
        · cases h1; exact ⟨rfl, hw, hp⟩
        · exact absurd h1 (hmem _ _ _)
      · intro e' he'
        cases he'
        exact ⟨m, by rw [hw]; rfl⟩
      · intro ev; cases ev <;> rfl
  · intro evs pc log _ hpc
    cases pc with
    | select => exact ⟨.done, _, rfl⟩
    | write m => exact ⟨.wrote none, _, rfl⟩
    | ack m => exact ⟨.acked, _, rfl⟩
    | ret r => exact absurd rfl (hpc r)

/-- Witness for claim C4: a worker that writes and acknowledges payloads 1
and 2 and then finds the channel closed returns `nil`; so does one that sees
`done` closed; a worker that writes and acknowledges payload 1 and whose
write of payload 2 fails returns that error and takes no further event. -/
theorem work_contract_witness :
    workRun .select ⟨[], [], []⟩
        [.recv ⟨1⟩, .wrote none, .acked, .recv ⟨2⟩, .wrote none, .acked, .closed]
      = some (.ret none, ⟨[⟨2⟩, ⟨1⟩], [(⟨2⟩, none), (⟨1⟩, none)], [⟨2⟩, ⟨1⟩]⟩) ∧
    workRun .select ⟨[], [], []⟩ [.recv ⟨1⟩, .wrote none, .acked, .done]
      = some (.ret none, ⟨[⟨1⟩], [(⟨1⟩, none)], [⟨1⟩]⟩) ∧
    workRun .select ⟨[], [], []⟩
        [.recv ⟨1⟩, .wrote none, .acked, .recv ⟨2⟩, .wrote (some "write timeout")]
      = some (.ret (some "write timeout"),
          ⟨[⟨2⟩, ⟨1⟩], [(⟨2⟩, some "write timeout"), (⟨1⟩, none)], [⟨1⟩]⟩) ∧
    (∀ ev, work (.ret (some "write timeout")) ev = none) :=
  ⟨work_contract.1 [⟨1⟩, ⟨2⟩] .closed (Or.inr rfl),
   work_contract.1 [⟨1⟩] .done (Or.inl rfl),
   work_contract.2.1 [⟨1⟩] ⟨2⟩ "write timeout",
   (work_contract.2.2.2.2.1 _ _ _
      (work_contract.2.1 [⟨1⟩] ⟨2⟩ "write timeout")).2.2.2.2.2⟩

end ingester

/-! ## Proofs: package `indexer` -/

namespace indexer

theorem ix_step_panicked {s s' : State} {a : Action} (h : step s a = some s') :
    s.panicked = false := by
  by_contra hp
  simp [step, hp] at h

theorem step_next {s s' : State} (h : step s .next = some s') :
    s.run = .range ∧
      ((∃ payload rest, s.ch = payload :: rest ∧
          s' = { s with ch := rest
                        run := .send payload payload.SampleGroup s.wgs.length
                        wgs := s.wgs ++ [(payload.SampleGroup.length : Int)] }) ∨
       (s.ch = [] ∧ s' = { s with run := .returned s.srcErr })) := by
  have hp := ix_step_panicked h
  rw [step, if_neg (by simp [hp])] at h
  cases hr : s.run <;> simp [hr] at h
  refine ⟨rfl, ?_⟩
  cases hc : s.ch with
  | nil => simp [hc] at h; exact Or.inr ⟨rfl, h.symm⟩
  | cons payload rest => simp [hc] at h; exact Or.inl ⟨_, _, rfl, h.symm⟩

theorem step_send {s s' : State} {n : Nat} (h : step s (.send n) = some s') :
    ∃ payload x rest wg, s.run = .send payload (x :: rest) wg ∧ s.workers[n]? = some .recv ∧
      s' = { s with run := .send payload rest wg
                    workers := s.workers.set n (.index { s := x, wg := wg }) } := by
  have hp := ix_step_panicked h
  rw [step, if_neg (by simp [hp])] at h
  cases hr : s.run with
  | send payload l wg =>
    cases l with
    | nil => simp [hr] at h
    | cons x rest =>
      cases hw : s.workers[n]? with
      | none => simp [hr, hw] at h
      | some pc =>
        cases pc <;> simp [hr, hw] at h
        exact ⟨_, _, _, _, rfl, rfl, h.symm⟩
  | _ => simp [hr] at h

theorem ix_step_wait {s s' : State} (h : step s .wait = some s') :
    ∃ payload wg, s.run = .send payload [] wg ∧ s.wgs[wg]? = some 0 ∧
      s' = { s with run := .done payload
                    indexDurations := ("index_sample_group", .group wg) :: s.indexDurations } := by
  have hp := ix_step_panicked h
  rw [step, if_neg (by simp [hp])] at h
  cases hr : s.run with
  | send payload l wg =>
    cases l with
    | nil =>
      simp [hr] at h
      exact ⟨_, _, rfl, h.1, h.2.symm⟩
    | cons x rest => simp [hr] at h
  | _ => simp [hr] at h

theorem ix_step_done {s s' : State} (h : step s .done = some s') :
    ∃ payload, s.run = .done payload ∧
      s' = { s with run := .range, acks := (payload, none) :: s.acks } := by
  have hp := ix_step_panicked h
  rw [step, if_neg (by simp [hp])] at h
  cases hr : s.run <;> simp [hr] at h
  exact ⟨_, rfl, h.symm⟩

theorem step_index {s s' : State} {n : Nat} {err : Option Err}
    (h : step s (.index n err) = some s') :
    ∃ w, s.workers[n]? = some (.index w) ∧
      s' = { s with calls := (w, err) :: s.calls
                    workers := s.workers.set n (.wgDone w err) } := by
  have hp := ix_step_panicked h
  rw [step, if_neg (by simp [hp])] at h
  cases hw : s.workers[n]? with
  | none => simp [hw] at h
  | some pc =>
    cases pc <;> simp [hw] at h
    exact ⟨_, rfl, h.symm⟩

theorem ix_step_wgDone {s s' : State} {n : Nat} (h : step s (.wgDone n) = some s') :
    ∃ w err c, s.workers[n]? = some (.wgDone w err) ∧ s.wgs[w.wg]? = some c ∧
      ((c - 1 < 0 ∧ s' = { s with panicked := true }) ∨
       (0 ≤ c - 1 ∧ s' = { s with wgs := s.wgs.set w.wg (c - 1)
                                  workers := s.workers.set n (.record w err) })) := by
  have hp := ix_step_panicked h
  rw [step, if_neg (by simp [hp])] at h
  cases hw : s.workers[n]? with
  | none => simp [hw] at h
  | some pc =>
    cases pc with
    | wgDone w err =>
      simp only [hw] at h
      cases hc : s.wgs[w.wg]? with
      | none => simp [hc] at h
      | some c =>
        simp only [hc] at h
        refine ⟨w, err, c, rfl, hc, ?_⟩
        split at h
        · left; exact ⟨by omega, by simpa using h.symm⟩
        · right; exact ⟨by omega, by simpa using h.symm⟩
    | _ => simp [hw] at h

theorem step_record {s s' : State} {n : Nat} (h : step s (.record n) = some s') :
    ∃ w, (∃ e, s.workers[n]? = some (.record w (some e)) ∧
            s' = { s with errorsTotal := ("index_sample", w) :: s.errorsTotal
                          workers := s.workers.set n .recv }) ∨
         (s.workers[n]? = some (.record w none) ∧
            s' = { s with indexDurations := ("index_sample", .sample w) :: s.indexDurations
                          workers := s.workers.set n .recv }) := by
  have hp := ix_step_panicked h
  rw [step, if_neg (by simp [hp])] at h
  cases hw : s.workers[n]? with
  | none => simp [hw] at h
  | some pc =>
    cases pc with
    | record w err =>
      cases err with
      | none => simp [hw] at h; exact ⟨w, Or.inr ⟨rfl, h.symm⟩⟩
      | some e => simp [hw] at h; exact ⟨w, Or.inl ⟨e, rfl, h.symm⟩⟩
    | _ => simp [hw] at h

theorem ix_inv_init (config : Config) : Inv config (NewIndexer config) := by
  refine ⟨rfl, rfl, ?_, ?_, rfl, ?_, ?_, ?_, ?_, ?_, ?_, ?_⟩
  · simp [NewIndexer, ackSequence, RunPc.current]
  · intro a ha; simp [NewIndexer] at ha
  · intro payload rest wg h; simp [NewIndexer] at h
  · intro r h; simp [NewIndexer] at h
  · intro w
    simp [NewIndexer, calledItems, wsum_replicate, atIndex, RunPc.unsent]
  · intro g
    simp [NewIndexer, wsum_replicate, pendingOn, RunPc.unsentOf]
  · intro g hg; simp [NewIndexer] at hg
  · intro w
    simp [NewIndexer, failedItems, erroredItems, wsum_replicate, errPending]
  · intro w
    simp [NewIndexer, succeededItems, observedItems, wsum_replicate, okPending]

/-- The payload `Run` receives next is the one at the position of the wait
group it creates for it. -/
theorem groupOf_next {config : Config} {s : State} (hinv : Inv config s)
    {payload : AckPayload} {rest : List AckPayload} (hr : s.run = .range)
    (hc : s.ch = payload :: rest) :
    groupOf config.Source.Chan s.wgs.length = payload.SampleGroup := by
  have h1 := hinv.received
  have h2 := hinv.wgsLength
  rw [hr] at h1 h2
  simp only [RunPc.current, List.append_nil, List.length_nil, Nat.add_zero] at h1 h2
  rw [hc] at h1
  have hlen : ((ackSequence s).map Prod.fst).length = s.wgs.length := by
    simp [ackSequence, h2]
  rw [groupOf, ← h1, List.getElem?_append_right (by omega)]
  simp [hlen]

theorem inv_next {config : Config} {s s' : State} (hinv : Inv config s)
    (h : step s .next = some s') : Inv config s' := by
  obtain ⟨hr, h1 | h1⟩ := step_next h
  · obtain ⟨payload, rest, hc, rfl⟩ := h1
    have hgrp := groupOf_next hinv hr hc
    refine ⟨hinv.srcErr, hinv.notPanicked, ?_, hinv.ackNil, ?_, ?_, ?_, ?_, ?_, ?_,
      hinv.errors, hinv.durations⟩
    · have := hinv.received
      rw [hr, hc] at this
      simpa [RunPc.current, ackSequence] using this
    · have := hinv.wgsLength
      rw [hr] at this
      simp [RunPc.current] at this ⊢
      omega
    · intro p r wg hrun
      simp at hrun
      simp [hrun.2.2]
    · intro r hrun; simp at hrun
    · intro w
      have := hinv.items w
      rw [hr] at this
      simp only [RunPc.unsent, calledItems, List.length_append, List.length_singleton] at this ⊢
      by_cases hw : s.wgs.length = w.wg
      · rw [if_pos hw, if_pos (by omega), ← hw, hgrp]
        rw [if_neg (by omega)] at this
        omega
      · rw [if_neg hw]
        by_cases hlt : w.wg < s.wgs.length
        · rw [if_pos (by omega)]; rw [if_pos hlt] at this; omega
        · rw [if_neg (by omega)]; rw [if_neg hlt] at this; omega
    · intro g
      have := hinv.counter g
      rw [hr] at this
      simp only [RunPc.unsentOf] at this ⊢
      rw [getD_append_one]
      by_cases hg : g = s.wgs.length
      · rw [if_pos hg, if_pos hg.symm]
        rw [getD_of_length_le _ _ _ (by omega)] at this
        push_cast at this ⊢
        omega
      · rw [if_neg hg, if_neg (fun h => hg h.symm)]
        exact this
    · intro g hg
      simp only [List.length_append, List.length_singleton] at hg
      by_cases hg' : g = s.wgs.length
      · left; exact ⟨_, _, by rw [hg']⟩
      · right
        rw [getD_append_one, if_neg hg']
        rcases hinv.finished g (by omega) with ⟨p, r, hp⟩ | h0
        · rw [hr] at hp; cases hp
        · exact h0
  · obtain ⟨hc, rfl⟩ := h1
    refine ⟨hinv.srcErr, hinv.notPanicked, ?_, hinv.ackNil, ?_, ?_, ?_, ?_, ?_, ?_,
      hinv.errors, hinv.durations⟩
    · have := hinv.received
      rw [hr] at this
      simpa [RunPc.current] using this
    · have := hinv.wgsLength
      rw [hr] at this
      simpa [RunPc.current] using this
    · intro p r wg hrun; simp at hrun
    · intro r hrun
      simp at hrun
      exact ⟨by rw [← hrun, hinv.srcErr], hc⟩
    · intro w
      have := hinv.items w
      rw [hr] at this
      simpa [RunPc.unsent] using this
    · intro g
      have := hinv.counter g
      rw [hr] at this
      simpa [RunPc.unsentOf] using this
    · intro g hg
      rcases hinv.finished g hg with ⟨p, r, hp⟩ | h0
      · rw [hr] at hp; cases hp
      · exact Or.inr h0

theorem inv_send {config : Config} {s s' : State} {n : Nat} (hinv : Inv config s)
    (h : step s (.send n) = some s') : Inv config s' := by
  obtain ⟨payload, x, rest, wg, hr, hw, rfl⟩ := step_send h
  have hset := fun f => wsum_set f s.workers n .recv (.index { s := x, wg := wg }) hw
  refine ⟨hinv.srcErr, hinv.notPanicked, ?_, hinv.ackNil, ?_, ?_, ?_, ?_, ?_, ?_, ?_, ?_⟩
  · have := hinv.received
    rw [hr] at this
    simpa [RunPc.current] using this
  · have := hinv.wgsLength
    rw [hr] at this
    simpa [RunPc.current] using this
  · intro p r g hrun
    simp at hrun
    rw [← hrun.2.2]
    exact hinv.sendLast _ _ _ hr
  · intro r hrun; simp at hrun
  · intro w
    have h1 := hinv.items w
    have h2 := hset (atIndex w)
    rw [hr] at h1
    simp only [RunPc.unsent, atIndex, calledItems, List.count_cons] at h1 h2 ⊢
    by_cases hg : wg = w.wg
    · simp only [if_pos hg] at h1 ⊢
      by_cases hx : x = w.s
      · have hwx : ({ s := x, wg := wg } : workPayload) = w := by
          cases w; simp at hg hx; simp [hg, hx]
        rw [if_pos hwx] at h2
        simp only [hx, beq_self_eq_true, if_true] at h1
        omega
      · have hwx : ¬ ({ s := x, wg := wg } : workPayload) = w := by
          intro hc; apply hx; rw [← hc]
        rw [if_neg hwx] at h2
        have hb : (x == w.s) = false := by simpa using hx
        simp only [hb] at h1
        simp at h1
        omega
    · simp only [if_neg hg] at h1 ⊢
      have hwx : ¬ ({ s := x, wg := wg } : workPayload) = w := by
        intro hc; apply hg; rw [← hc]
      rw [if_neg hwx] at h2
      omega
  · intro g
    have h1 := hinv.counter g
    have h2 := hset (pendingOn g)
    rw [hr] at h1
    simp only [RunPc.unsentOf, pendingOn, List.length_cons] at h1 h2 ⊢
    by_cases hg : wg = g
    · simp only [if_pos hg] at h1 h2 ⊢
      rw [h1]; push_cast; omega
    · simp only [if_neg hg] at h1 h2 ⊢
      rw [h1]; push_cast; omega
  · intro g hg
    rcases hinv.finished g hg with ⟨p, r, hp⟩ | h0
    · rw [hr] at hp
      cases hp
      exact Or.inl ⟨_, _, rfl⟩
    · exact Or.inr h0
  · intro w
    have h1 := hinv.errors w
    have h2 := hset (errPending w)
    simp only [errPending] at h2
    simp only [failedItems, erroredItems] at h1 ⊢
    omega
  · intro w
    have h1 := hinv.durations w
    have h2 := hset (okPending w)
    simp only [okPending] at h2
    simp only [succeededItems, observedItems] at h1 ⊢
    omega

theorem inv_wait {config : Config} {s s' : State} (hinv : Inv config s)
    (h : step s .wait = some s') : Inv config s' := by
  obtain ⟨payload, wg, hr, hz, rfl⟩ := ix_step_wait h
  refine ⟨hinv.srcErr, hinv.notPanicked, ?_, hinv.ackNil, ?_, ?_, ?_, ?_, ?_, ?_,
    hinv.errors, ?_⟩
  · have := hinv.received
    rw [hr] at this
    simpa [RunPc.current] using this
  · have := hinv.wgsLength
    rw [hr] at this
    simpa [RunPc.current] using this
  · intro p r g hrun; simp at hrun
  · intro r hrun; simp at hrun
  · intro w
    have := hinv.items w
    rw [hr] at this
    simpa [RunPc.unsent] using this
  · intro g
    have := hinv.counter g
    rw [hr] at this
    simpa [RunPc.unsentOf] using this
  · intro g hg
    right
    rcases hinv.finished g hg with ⟨p, r, hp⟩ | h0
    · rw [hr] at hp
      cases hp
      exact getD_of_getElem? _ _ _ _ hz
    · exact h0
  · intro w
    have := hinv.durations w
    simpa [succeededItems, observedItems] using this

theorem inv_done {config : Config} {s s' : State} (hinv : Inv config s)
    (h : step s .done = some s') : Inv config s' := by
  obtain ⟨payload, hr, rfl⟩ := ix_step_done h
  refine ⟨hinv.srcErr, hinv.notPanicked, ?_, ?_, ?_, ?_, ?_, ?_, ?_, ?_,
    hinv.errors, hinv.durations⟩
  · have := hinv.received
    rw [hr] at this
    simpa [RunPc.current, ackSequence] using this
  · intro a ha
    simp only [List.mem_cons] at ha
    rcases ha with rfl | ha
    · rfl
    · exact hinv.ackNil a ha
  · have := hinv.wgsLength
    rw [hr] at this
    simpa [RunPc.current] using this
  · intro p r g hrun; simp at hrun
  · intro r hrun; simp at hrun
  · intro w
    have := hinv.items w
    rw [hr] at this
    simpa [RunPc.unsent] using this
  · intro g
    have := hinv.counter g
    rw [hr] at this
    simpa [RunPc.unsentOf] using this
  · intro g hg
    rcases hinv.finished g hg with ⟨p, r, hp⟩ | h0
    · rw [hr] at hp; cases hp
    · exact Or.inr h0

theorem inv_index {config : Config} {s s' : State} {n : Nat} {err : Option Err}
    (hinv : Inv config s) (h : step s (.index n err) = some s') : Inv config s' := by
  obtain ⟨w0, hw, rfl⟩ := step_index h
  have hset := fun f => wsum_set f s.workers n (.index w0) (.wgDone w0 err) hw
  refine ⟨hinv.srcErr, hinv.notPanicked, hinv.received, hinv.ackNil, hinv.wgsLength,
    hinv.sendLast, hinv.returned, ?_, ?_, hinv.finished, ?_, ?_⟩
  · intro w
    have h1 := hinv.items w
    have h2 := hset (atIndex w)
    simp only [atIndex, calledItems, List.map_cons, List.count_cons] at h1 h2 ⊢
    by_cases hww : w0 = w
    · simp only [hww, beq_self_eq_true, if_true] at h2 ⊢
      omega
    · have hb : (w0 == w) = false := by simpa using hww
      simp only [hb, if_neg hww] at h2 ⊢
      simp
      omega
  · intro g
    have h1 := hinv.counter g
    have h2 := hset (pendingOn g)
    simp only [pendingOn] at h2
    rw [h1]
    simp only
    congr 1
    omega
  · intro w
    have h1 := hinv.errors w
    have h2 := hset (errPending w)
    cases err with
    | none =>
      simp only [errPending] at h2
      simp only [failedItems, erroredItems] at h1 ⊢
      simp only [List.filter_cons, Option.isSome_none]
      simp
      omega
    | some e =>
      simp only [errPending] at h2
      simp only [failedItems, erroredItems] at h1 ⊢
      simp only [List.filter_cons, Option.isSome_some, if_true, List.map_cons, List.count_cons]
      by_cases hww : w0 = w
      · simp only [hww, beq_self_eq_true, if_true] at h2 ⊢
        omega
      · have hb : (w0 == w) = false := by simpa using hww
        simp only [hb, if_neg hww] at h2 ⊢
        simp
        omega
  · intro w
    have h1 := hinv.durations w
    have h2 := hset (okPending w)
    cases err with
    | some e =>
      simp only [okPending] at h2
      simp only [succeededItems, observedItems] at h1 ⊢
      simp only [List.filter_cons, Option.isNone_some]
      simp
      omega
    | none =>
      simp only [okPending] at h2
      simp only [succeededItems, observedItems] at h1 ⊢
      simp only [List.filter_cons, Option.isNone_none, if_true, List.map_cons, List.count_cons]
      by_cases hww : w0 = w
      · simp only [hww, beq_self_eq_true, if_true] at h2 ⊢
        omega
      · have hb : (w0 == w) = false := by simpa using hww
        simp only [hb, if_neg hww] at h2 ⊢
        simp
        omega

theorem inv_wgDone {config : Config} {s s' : State} {n : Nat}
    (hinv : Inv config s) (h : step s (.wgDone n) = some s') : Inv config s' := by
  obtain ⟨w0, err, c, hw, hc, h1⟩ := ix_step_wgDone h
  have hcd : s.wgs.getD w0.wg 0 = c := getD_of_getElem? _ _ _ _ hc
  have hpos : 1 ≤ wsum (pendingOn w0.wg) s.workers := by
    have := wsum_le (pendingOn w0.wg) _ _ _ hw
    simpa [pendingOn] using this
  have hc1 : 1 ≤ c := by
    have := hinv.counter w0.wg
    rw [hcd] at this
    omega
  rcases h1 with ⟨hneg, _⟩ | ⟨_, rfl⟩
  · omega
  · have hset := fun f => wsum_set f s.workers n (.wgDone w0 err) (.record w0 err) hw
    refine ⟨hinv.srcErr, hinv.notPanicked, hinv.received, hinv.ackNil, ?_, ?_,
      hinv.returned, ?_, ?_, ?_, ?_, ?_⟩
    · have := hinv.wgsLength
      simpa using this
    · intro p r g hrun
      have := hinv.sendLast p r g hrun
      simpa using this
    · intro w
      have h1 := hinv.items w
      have h2 := hset (atIndex w)
      simp only [atIndex] at h2
      simp only [List.length_set]
      simp only [calledItems] at h1 ⊢
      omega
    · intro g
      have h1 := hinv.counter g
      have h2 := hset (pendingOn g)
      simp only [pendingOn] at h2
      simp only
      rw [getD_set_of _ _ _ _ _ _ hc]
      by_cases hg : w0.wg = g
      · simp only [if_pos hg] at h2 ⊢
        rw [← hg, hcd] at h1
        rw [← hg] at h2 ⊢
        omega
      · simp only [if_neg hg] at h2 ⊢
        rw [h1]
        congr 1
        omega
    · intro g hg
      simp only [List.length_set] at hg
      rcases hinv.finished g hg with hl | h0
      · exact Or.inl hl
      · right
        simp only
        rw [getD_set_of _ _ _ _ _ _ hc]
        by_cases hgw : w0.wg = g
        · rw [← hgw, hcd] at h0
          omega
        · rw [if_neg hgw]; exact h0
    · intro w
      have h1 := hinv.errors w
      have h2 := hset (errPending w)
      cases err <;> simp only [errPending] at h2 <;>
        simp only [failedItems, erroredItems] at h1 ⊢ <;> omega
    · intro w
      have h1 := hinv.durations w
      have h2 := hset (okPending w)
      cases err <;> simp only [okPending] at h2 <;>
        simp only [succeededItems, observedItems] at h1 ⊢ <;> omega

theorem inv_record {config : Config} {s s' : State} {n : Nat}
    (hinv : Inv config s) (h : step s (.record n) = some s') : Inv config s' := by
  obtain ⟨w0, ⟨e, hw, rfl⟩ | ⟨hw, rfl⟩⟩ := step_record h
  · have hset := fun f => wsum_set f s.workers n (.record w0 (some e)) .recv hw
    refine ⟨hinv.srcErr, hinv.notPanicked, hinv.received, hinv.ackNil, hinv.wgsLength,
      hinv.sendLast, hinv.returned, ?_, ?_, hinv.finished, ?_, ?_⟩
    · intro w
      have h1 := hinv.items w
      have h2 := hset (atIndex w)
      simp only [atIndex] at h2
      simp only [calledItems] at h1 ⊢
      omega
    · intro g
      have h1 := hinv.counter g
      have h2 := hset (pendingOn g)
      simp only [pendingOn] at h2
      rw [h1]
      simp only
      congr 1
      omega
    · intro w
      have h1 := hinv.errors w
      have h2 := hset (errPending w)
      simp only [errPending] at h2
      simp only [failedItems, erroredItems] at h1 ⊢
      simp only [List.filter_cons, decide_True, if_true, List.map_cons, List.count_cons]
      by_cases hww : w0 = w
      · simp only [hww, beq_self_eq_true, if_true] at h2 ⊢
        omega
      · have hb : (w0 == w) = false := by simpa using hww
        simp only [hb, if_neg hww] at h2 ⊢
        simp
        omega
    · intro w
      have h1 := hinv.durations w
      have h2 := hset (okPending w)
      simp only [okPending] at h2
      simp only [succeededItems, observedItems] at h1 ⊢
      omega
  · have hset := fun f => wsum_set f s.workers n (.record w0 none) .recv hw
    refine ⟨hinv.srcErr, hinv.notPanicked, hinv.received, hinv.ackNil, hinv.wgsLength,
      hinv.sendLast, hinv.returned, ?_, ?_, hinv.finished, ?_, ?_⟩
    · intro w
      have h1 := hinv.items w
      have h2 := hset (atIndex w)
      simp only [atIndex] at h2
      simp only [calledItems] at h1 ⊢
      omega
    · intro g
      have h1 := hinv.counter g
      have h2 := hset (pendingOn g)
      simp only [pendingOn] at h2
      rw [h1]
      simp only
      congr 1
      omega
    · intro w
      have h1 := hinv.errors w
      have h2 := hset (errPending w)
      simp only [errPending] at h2
      simp only [failedItems, erroredItems] at h1 ⊢
      omega
    · intro w
      have h1 := hinv.durations w
      have h2 := hset (okPending w)
      simp only [okPending] at h2
      simp only [succeededItems, observedItems] at h1 ⊢
      simp only [List.filterMap_cons, if_true, List.count_cons]
      by_cases hww : w0 = w
      · simp only [hww, beq_self_eq_true, if_true] at h2 ⊢
        omega
      · have hb : (w0 == w) = false := by simpa using hww
        simp only [hb, if_neg hww] at h2 ⊢
        simp
        omega

theorem ix_inv_step {config : Config} {s s' : State} {a : Action}
    (hinv : Inv config s) (h : step s a = some s') : Inv config s' := by
  cases a with
  | next => exact inv_next hinv h
  | send n => exact inv_send hinv h
  | wait => exact inv_wait hinv h
  | done => exact inv_done hinv h
  | index n err => exact inv_index hinv h
  | wgDone n => exact inv_wgDone hinv h
  | record n => exact inv_record hinv h

theorem ix_inv_exec {config : Config} (sched : List Action) :
    ∀ {s s' : State}, Inv config s → exec s sched = some s' → Inv config s' := by
  induction sched with
  | nil => intro s s' hinv h; simp [exec] at h; exact h ▸ hinv
  | cons a as ih =>
    intro s s' hinv h
    rw [exec] at h
    cases hs : step s a with
    | none => simp [hs] at h
    | some s1 =>
      simp only [hs] at h
      exact ih (ix_inv_step hinv hs) h

theorem count_filter_wg (l : List workPayload) (w : workPayload) (g : Nat) :
    (l.filter (fun w' => w'.wg = g)).count w = if w.wg = g then l.count w else 0 := by
  induction l with
  | nil => simp
  | cons a l ih =>
    by_cases ha : a.wg = g
    · rw [List.filter_cons_of_pos (by simpa using ha), List.count_cons, List.count_cons, ih]
      by_cases hw : w.wg = g
      · simp [hw]
      · have : (a == w) = false := by
          simp only [beq_eq_false_iff_ne, ne_eq]
          intro h; apply hw; rw [← h]; exact ha
        simp [hw, this]
    · rw [List.filter_cons_of_neg (by simpa using ha), ih, List.count_cons]
      by_cases hw : w.wg = g
      · have : (a == w) = false := by
          simp only [beq_eq_false_iff_ne, ne_eq]
          intro h; apply ha; rw [h]; exact hw
        simp [hw, this]
      · simp [hw]

theorem count_map_s (l : List workPayload) (x : Sample) (g : Nat) :
    ((l.filter (fun w' => w'.wg = g)).map workPayload.s).count x = l.count ⟨x, g⟩ := by
  induction l with
  | nil => simp
  | cons a l ih =>
    by_cases ha : a.wg = g
    · rw [List.filter_cons_of_pos (by simpa using ha), List.map_cons, List.count_cons,
        List.count_cons, ih]
      congr 1
      by_cases hx : a.s = x
      · have : a = ⟨x, g⟩ := by cases a; simp at ha hx; simp [ha, hx]
        simp [this]
      · have h1 : (a.s == x) = false := by simpa using hx
        have h2 : (a == (⟨x, g⟩ : workPayload)) = false := by
          simp only [beq_eq_false_iff_ne, ne_eq]
          intro h; apply hx; rw [h]
        simp [h1, h2]
    · rw [List.filter_cons_of_neg (by simpa using ha), ih, List.count_cons]
      have h2 : (a == (⟨x, g⟩ : workPayload)) = false := by
        simp only [beq_eq_false_iff_ne, ne_eq]
        intro h; apply ha; rw [h]
      simp [h2]

theorem workers_length_step {s s' : State} {a : Action} (h : step s a = some s') :
    s'.workers.length = s.workers.length := by
  cases a with
  | next =>
    obtain ⟨_, h1 | h1⟩ := step_next h
    · obtain ⟨p, r, _, rfl⟩ := h1; rfl
    · obtain ⟨_, rfl⟩ := h1; rfl
  | send n => obtain ⟨p, x, r, g, _, _, rfl⟩ := step_send h; simp
  | wait => obtain ⟨p, g, _, _, rfl⟩ := ix_step_wait h; rfl
  | done => obtain ⟨p, _, rfl⟩ := ix_step_done h; rfl
  | index n err => obtain ⟨w, _, rfl⟩ := step_index h; simp
  | wgDone n =>
    obtain ⟨w, e, c, _, _, ⟨_, rfl⟩ | ⟨_, rfl⟩⟩ := ix_step_wgDone h
    · rfl
    · simp
  | record n =>
    obtain ⟨w, ⟨e, _, rfl⟩ | ⟨_, rfl⟩⟩ := step_record h <;> simp

theorem workers_length_exec (sched : List Action) :
    ∀ {s s' : State}, exec s sched = some s' → s'.workers.length = s.workers.length := by
  induction sched with
  | nil => intro s s' h; simp [exec] at h; rw [h]
  | cons a as ih =>
    intro s s' h
    rw [exec] at h
    cases hs : step s a with
    | none => simp [hs] at h
    | some s1 =>
      simp only [hs] at h
      rw [ih h, workers_length_step hs]

/-- Every statement uses up budget: a run executes finitely many statements. -/
theorem ix_budget_step {s s' : State} {a : Action} (h : step s a = some s') :
    s'.budget < s.budget := by
  have hp := ix_step_panicked h
  cases a with
  | next =>
    obtain ⟨hr, h1 | h1⟩ := step_next h
    · obtain ⟨p, r, hc, rfl⟩ := h1
      simp only [State.budget, hr, hc, chBudget]
      omega
    · obtain ⟨_, rfl⟩ := h1
      simp only [State.budget, hr]
      omega
  | send n =>
    obtain ⟨p, x, r, g, hr, hw, rfl⟩ := step_send h
    have := wsum_set stepsLeft s.workers n _ (.index ⟨x, g⟩) hw
    simp only [stepsLeft] at this
    simp only [State.budget, hr, List.length_cons]
    omega
  | wait =>
    obtain ⟨p, g, hr, _, rfl⟩ := ix_step_wait h
    simp only [State.budget, hr, List.length_nil]
    omega
  | done =>
    obtain ⟨p, hr, rfl⟩ := ix_step_done h
    simp only [State.budget, hr]
    omega
  | index n err =>
    obtain ⟨w, hw, rfl⟩ := step_index h
    have := wsum_set stepsLeft s.workers n _ (.wgDone w err) hw
    simp only [stepsLeft] at this
    simp only [State.budget]
    omega
  | wgDone n =>
    obtain ⟨w, e, c, hw, _, ⟨_, rfl⟩ | ⟨_, rfl⟩⟩ := ix_step_wgDone h
    · simp [State.budget, hp]
    · have := wsum_set stepsLeft s.workers n _ (.record w e) hw
      simp only [stepsLeft] at this
      simp only [State.budget]
      omega
  | record n =>
    obtain ⟨w, ⟨e, hw, rfl⟩ | ⟨hw, rfl⟩⟩ := step_record h
    · have := wsum_set stepsLeft s.workers n _ .recv hw
      simp only [stepsLeft] at this
      simp only [State.budget]
      omega
    · have := wsum_set stepsLeft s.workers n _ .recv hw
      simp only [stepsLeft] at this
      simp only [State.budget]
      omega

theorem ix_budget_exec (sched : List Action) :
    ∀ {s s' : State}, exec s sched = some s' → s'.budget + sched.length ≤ s.budget := by
  induction sched with
  | nil => intro s s' h; simp [exec] at h; subst h; simp
  | cons a as ih =>
    intro s s' h
    rw [exec] at h
    cases hs : step s a with
    | none => simp [hs] at h
    | some s1 =>
      simp only [hs] at h
      have h1 := ih h
      have h2 := ix_budget_step hs
      simp only [List.length_cons]
      omega

/-- Every run can be continued until no goroutine can move any more. -/
theorem ix_exists_halted : ∀ (b : Nat) (s : State), s.budget ≤ b →
    ∃ sched s', exec s sched = some s' ∧ Halted s' := by
  intro b
  induction b with
  | zero =>
    intro s hb
    refine ⟨[], s, rfl, ?_⟩
    intro a
    cases hs : step s a with
    | none => rfl
    | some s1 => have := ix_budget_step hs; omega
  | succ b ih =>
    intro s hb
    by_cases hh : Halted s
    · exact ⟨[], s, rfl, hh⟩
    · simp only [Halted, not_forall] at hh
      obtain ⟨a, ha⟩ := hh
      cases hs : step s a with
      | none => exact absurd hs ha
      | some s1 =>
        have := ix_budget_step hs
        obtain ⟨sched, s', h1, h2⟩ := ih s1 (by omega)
        exact ⟨a :: sched, s', by simp [exec, hs, h1], h2⟩

/-- In a run that cannot move any more every worker is back at its `range`. -/
theorem workers_idle_of_halted {config : Config} {s : State} (hinv : Inv config s)
    (hh : Halted s) : ∀ pc ∈ s.workers, pc = .recv := by
  intro pc hpc
  obtain ⟨n, hlt, hn⟩ := List.getElem_of_mem hpc
  have hn' : s.workers[n]? = some pc := by rw [List.getElem?_eq_getElem hlt, hn]
  have hp := hinv.notPanicked
  cases pc with
  | recv => rfl
  | index w =>
    have := hh (.index n none)
    simp [step, hp, hn'] at this
  | wgDone w err =>
    exfalso
    have h1 := hinv.counter w.wg
    have h2 := wsum_le (pendingOn w.wg) _ _ _ hn'
    simp only [pendingOn, if_true] at h2
    have hlt' : w.wg < s.wgs.length := by
      by_contra hc
      rw [getD_of_length_le _ _ _ (by omega)] at h1
      omega
    have := hh (.wgDone n)
    rw [step, if_neg (by simp [hp])] at this
    simp only [hn', List.getElem?_eq_getElem hlt'] at this
    split at this <;> simp at this
  | record w err =>
    have := hh (.record n)
    cases err <;> simp [step, hp, hn'] at this

/-- With at least one worker, a run that cannot move any more has returned
from `Run`. -/
theorem ix_returned_of_halted {config : Config} {s : State} (hinv : Inv config s)
    (hlen : 0 < s.workers.length) (hh : Halted s) : ∃ r, s.run = .returned r := by
  have hidle := workers_idle_of_halted hinv hh
  have hp := hinv.notPanicked
  cases hr : s.run with
  | returned r => exact ⟨r, rfl⟩
  | range =>
    exfalso
    have := hh .next
    rw [step, if_neg (by simp [hp])] at this
    simp only [hr] at this
    cases hc : s.ch <;> simp [hc] at this
  | done p =>
    exfalso
    have := hh .done
    simp [step, hp, hr] at this
  | send p rest g =>
    exfalso
    cases rest with
    | cons x rest =>
      have h0 : s.workers[0]? = some .recv := by
        rw [List.getElem?_eq_getElem hlen]
        rw [hidle _ (List.getElem_mem _)]
      have := hh (.send 0)
      simp [step, hp, hr, h0] at this
    | nil =>
      have h1 := hinv.counter g
      have h2 : wsum (pendingOn g) s.workers = 0 :=
        wsum_eq_zero _ _ (fun pc hpc => by rw [hidle pc hpc]; rfl)
      have h3 := hinv.sendLast _ _ _ hr
      rw [hr, h2] at h1
      simp only [RunPc.unsentOf, if_true, List.length_nil] at h1
      have h4 : s.wgs[g]? = some 0 := by
        rw [List.getElem?_eq_getElem (by omega)]
        rw [List.getD_eq_getElem _ _ (by omega)] at h1
        simpa using h1
      have := hh .wait
      simp [step, hp, hr, h4] at this

theorem atIndex_le_pendingOn (w : workPayload) (pc : WorkerPc) :
    atIndex w pc ≤ pendingOn w.wg pc := by
  cases pc with
  | index w' =>
    simp only [atIndex, pendingOn]
    by_cases h : w' = w
    · simp [h]
    · simp [h]
  | _ => simp [atIndex]

theorem unsent_le_unsentOf (w : workPayload) (run : RunPc) :
    run.unsent w ≤ run.unsentOf w.wg := by
  cases run with
  | send p rest g =>
    simp only [RunPc.unsent, RunPc.unsentOf]
    split
    · exact List.count_le_length _ _
    · exact Nat.le_refl _
  | _ => simp [RunPc.unsent]

/-- Once the wait group of a group is at zero and `Run` has left it, every
sample of the group has had its call of `IndexSample` return, exactly once. -/
theorem calls_of_counter_zero {config : Config} {s : State} (hinv : Inv config s)
    {g : Nat} (hg : g < s.wgs.length) (hz : s.wgs.getD g 0 = 0) (x : Sample) :
    (calledItems s).count ⟨x, g⟩ = (groupOf config.Source.Chan g).count x := by
  have h1 := hinv.counter g
  rw [hz] at h1
  have h2 := wsum_mono (atIndex ⟨x, g⟩) (pendingOn g) s.workers
    (fun pc => atIndex_le_pendingOn ⟨x, g⟩ pc)
  have h3 := unsent_le_unsentOf ⟨x, g⟩ s.run
  have h4 := hinv.items ⟨x, g⟩
  simp only at h3 h4
  rw [if_pos hg] at h4
  omega

theorem calls_of_acked {config : Config} {s : State} (hinv : Inv config s)
    {g : Nat} (hg : g < s.acks.length) (x : Sample) :
    (calledItems s).count ⟨x, g⟩ = (groupOf config.Source.Chan g).count x := by
  have hlen := hinv.wgsLength
  rcases hinv.finished g (by omega) with ⟨p, r, hp⟩ | h0
  · have := hinv.sendLast _ _ _ hp
    rw [hp] at hlen
    simp only [RunPc.current, List.length_singleton] at hlen
    omega
  · exact calls_of_counter_zero hinv (by omega) h0 x

theorem perm_of_counts {config : Config} {s : State} {g : Nat}
    (h : ∀ x, (calledItems s).count ⟨x, g⟩ = (groupOf config.Source.Chan g).count x) :
    List.Perm (((calledItems s).filter (fun w => w.wg = g)).map workPayload.s)
      (groupOf config.Source.Chan g) := by
  rw [List.perm_iff_count]
  intro x
  rw [count_map_s, h x]

theorem ackSequence_eq {config : Config} {s : State} (hinv : Inv config s) :
    ackSequence s = (config.Source.Chan.take s.acks.length).map (fun p => (p, none)) := by
  apply eq_map_of_fst
  · have h1 := hinv.received
    rw [← h1, List.append_assoc, List.take_left']
    simp [ackSequence]
  · intro a ha
    exact hinv.ackNil a (by simpa [ackSequence] using ha)

theorem calls_le {config : Config} {s : State} (hinv : Inv config s) (w : workPayload) :
    (calledItems s).count w ≤ (groupOf config.Source.Chan w.wg).count w.s := by
  have := hinv.items w
  split at this <;> omega

theorem allGroupsIndexed_of_halted {config : Config} {s : State} (hinv : Inv config s)
    (hlen : 0 < s.workers.length) (hh : Halted s) :
    AllGroupsIndexed config s ∧ s.run = .returned config.Source.Err := by
  obtain ⟨r, hr⟩ := ix_returned_of_halted hinv hlen hh
  obtain ⟨hr1, hc⟩ := hinv.returned r hr
  have hrec := hinv.received
  have hwl := hinv.wgsLength
  rw [hr] at hrec hwl
  rw [hc] at hrec
  simp only [RunPc.current, List.append_nil, List.length_nil, Nat.add_zero] at hrec hwl
  have hlen2 : s.acks.length = config.Source.Chan.length := by
    rw [← hrec]; simp [ackSequence]
  refine ⟨⟨?_, ?_⟩, by rw [hr, hr1]⟩
  · rw [ackSequence_eq hinv, hlen2, List.take_length]
  · intro g hg
    exact perm_of_counts (fun x => calls_of_acked hinv (by omega) x)

/-- Claim C1, amended: for an indexer with at least one worker goroutine, in
every run: (a) for every payload acknowledged so far, the calls of
`IndexSample` that have returned for its group are exactly one per sample of
the group, so `Done` was called only after all `k` calls had returned,
whatever each returned (`k = 0` included); (b) at no time has `IndexSample`
returned more often for a sample than the sample occurs in its group; (c) the
acknowledgments made so far are one `Done(nil)` for each of the first
payloads of the source, in order; (d) the run executes at most `budget`
statements; (e) once no goroutine can move any more, every payload of the
source has been acknowledged exactly once and `IndexSample` has been called
exactly once for every sample of every group; (f) every run can be continued
to such a state. -/
theorem groups_indexed_then_acked (config : Config) (sched : List Action) (s : State)
    (hw : 0 < config.NumIndexGoroutines)
    (h : exec (NewIndexer config) sched = some s) :
    (∀ g, g < s.acks.length →
      List.Perm (((calledItems s).filter (fun w => w.wg = g)).map workPayload.s)
        (groupOf config.Source.Chan g)) ∧
    (∀ w, (calledItems s).count w ≤ (groupOf config.Source.Chan w.wg).count w.s) ∧
    ackSequence s = (config.Source.Chan.take s.acks.length).map (fun p => (p, none)) ∧
    sched.length ≤ (NewIndexer config).budget ∧
    (Halted s → AllGroupsIndexed config s) ∧
    (∃ sched' s', exec s sched' = some s' ∧ Halted s' ∧ AllGroupsIndexed config s') := by
  have hinv := ix_inv_exec sched (ix_inv_init config) h
  have hlen : 0 < s.workers.length := by
    rw [workers_length_exec sched h]
    simp [NewIndexer]
    omega
  refine ⟨fun g hg => perm_of_counts (fun x => calls_of_acked hinv hg x),
    calls_le hinv, ackSequence_eq hinv, ?_,
    fun hh => (allGroupsIndexed_of_halted hinv hlen hh).1, ?_⟩
  · have := ix_budget_exec sched h
    omega
  · obtain ⟨sched', s', h1, h2⟩ := ix_exists_halted s.budget s (Nat.le_refl _)
    have hlen' : 0 < s'.workers.length := by rw [workers_length_exec sched' h1]; exact hlen
    exact ⟨sched', s', h1, h2,
      (allGroupsIndexed_of_halted (ix_inv_exec sched' hinv h1) hlen' h2).1⟩

/-- Witness for the amended claim C1: scenario A of the specification
run to the end. -/
theorem groups_indexed_then_acked_witness :
    ∃ s, exec (NewIndexer scenarioA) scheduleA = some s ∧ s.calls.length = 3 ∧
      ackSequence s = [(⟨[10, 20, 30]⟩, none)] ∧
      List.Perm (((calledItems s).filter (fun w => w.wg = 0)).map workPayload.s)
        (groupOf scenarioA.Source.Chan 0) :=
  ⟨_, rfl, by decide, by decide,
    (groups_indexed_then_acked scenarioA scheduleA _ (by decide) rfl).1 0 (by decide)⟩

theorem halted_blocked : Halted blocked := by
  intro a
  cases a <;> simp [step, blocked]

/-- Claim C1, as stated, fails for an indexer built with
`NumIndexGoroutines = 0`: `Run` receives the group of one sample and blocks
on `i.work <- ...` for good, with no goroutine able to move; `IndexSample` is
never invoked for the sample and `Done` is never called. -/
theorem group_stuck_without_workers :
    exec (NewIndexer noWorkers) [.next] = some blocked ∧ Halted blocked ∧
    blocked.calls = [] ∧ blocked.acks = [] ∧
    ¬ (∀ sched s, exec (NewIndexer noWorkers) sched = some s → Halted s →
        AllGroupsIndexed noWorkers s) := by
  refine ⟨by decide, halted_blocked, rfl, rfl, ?_⟩
  intro hall
  have := (hall [.next] blocked (by decide) halted_blocked).1
  simp [ackSequence, blocked, noWorkers] at this

/-- Claim C2, amended: for an indexer with at least one worker goroutine, for
every source and every schedule (so for every outcome of every `IndexSample`
call): the acknowledgments made so far are exactly one `Done(nil)` for each of
the first payloads of the source, in the order received; every payload of the
source is either acknowledged, or the one `Run` is processing, or still on
the channel; once no goroutine can move any more the acknowledgments are
exactly one `Done(nil)` per payload of the source, in order; and every run
can be continued to that end. -/
theorem acks_follow_receive_order (config : Config) (sched : List Action) (s : State)
    (hw : 0 < config.NumIndexGoroutines)
    (h : exec (NewIndexer config) sched = some s) :
    ackSequence s = (config.Source.Chan.take s.acks.length).map (fun p => (p, none)) ∧
    s.acks.length + s.run.current.length + s.ch.length = config.Source.Chan.length ∧
    s.run.current.length ≤ 1 ∧
    (Halted s → ackSequence s = config.Source.Chan.map (fun p => (p, none))) ∧
    (∃ sched' s', exec s sched' = some s' ∧
      ackSequence s' = config.Source.Chan.map (fun p => (p, none))) := by
  have hinv := ix_inv_exec sched (ix_inv_init config) h
  have hlen : 0 < s.workers.length := by
    rw [workers_length_exec sched h]
    simp [NewIndexer]
    omega
  refine ⟨ackSequence_eq hinv, ?_, ?_,
    fun hh => (allGroupsIndexed_of_halted hinv hlen hh).1.1, ?_⟩
  · have := congrArg List.length hinv.received
    simp [ackSequence] at this
    omega
  · cases s.run <;> simp [RunPc.current]
  · obtain ⟨sched', s', h1, h2⟩ := ix_exists_halted s.budget s (Nat.le_refl _)
    have hlen' : 0 < s'.workers.length := by rw [workers_length_exec sched' h1]; exact hlen
    exact ⟨sched', s', h1,
      (allGroupsIndexed_of_halted (ix_inv_exec sched' hinv h1) hlen' h2).1.1⟩

/-- Claim C2, as stated, fails for an indexer built with
`NumIndexGoroutines = 0`: the source has delivered its only payload and is
exhausted, no goroutine can move, and the sequence of acknowledgments is
empty instead of one `Done(nil)` for the payload. -/
theorem payload_never_acked_without_workers :
    exec (NewIndexer noWorkers) [.next] = some blocked ∧ Halted blocked ∧
    blocked.ch = [] ∧ ackSequence blocked = [] ∧
    ackSequence blocked ≠ noWorkers.Source.Chan.map (fun p => (p, none)) := by
  refine ⟨by decide, halted_blocked, rfl, rfl, by decide⟩

/-- Witness for the amended claim C2: scenario A, in which the call for
the second sample fails, and the group is acknowledged with `nil`. -/
theorem acks_follow_receive_order_witness :
    ∃ s, exec (NewIndexer scenarioA) scheduleA = some s ∧
      failedItems s = [⟨20, 0⟩] ∧ s.acks.length = 1 ∧
      ackSequence s = (scenarioA.Source.Chan.take s.acks.length).map (fun p => (p, none)) :=
  ⟨_, rfl, by decide, by decide,
    (acks_follow_receive_order scenarioA scheduleA _ (by decide) rfl).1⟩

theorem run_stable {s s' : State} {a : Action} {r : Option Err}
    (hr : s.run = .returned r) (h : step s a = some s') : s'.run = .returned r := by
  cases a with
  | next => have := (step_next h).1; rw [hr] at this; cases this
  | send n => obtain ⟨p, x, rest, g, h1, _⟩ := step_send h; rw [hr] at h1; cases h1
  | wait => obtain ⟨p, g, h1, _⟩ := ix_step_wait h; rw [hr] at h1; cases h1
  | done => obtain ⟨p, h1, _⟩ := ix_step_done h; rw [hr] at h1; cases h1
  | index n err => obtain ⟨w, _, rfl⟩ := step_index h; exact hr
  | wgDone n =>
    obtain ⟨w, e, c, _, _, ⟨_, rfl⟩ | ⟨_, rfl⟩⟩ := ix_step_wgDone h <;> exact hr
  | record n =>
    obtain ⟨w, ⟨e, _, rfl⟩ | ⟨_, rfl⟩⟩ := step_record h <;> exact hr

/-- Claim C3, as stated, fails for an indexer built with
`NumIndexGoroutines = 0`: `Run` receives the only payload of the source, the
channel of the source is exhausted, and `Run` blocks on `i.work <- ...` for
good: no goroutine can move, and in no run does `Run` ever return, neither
`Source.Err()` nor anything else. -/
theorem Run_never_returns_without_workers :
    exec (NewIndexer noWorkers) [.next] = some blocked ∧ blocked.ch = [] ∧
    Halted blocked ∧
    (∀ sched s, exec (NewIndexer noWorkers) sched = some s → ∀ r, s.run ≠ .returned r) := by
  refine ⟨by decide, rfl, halted_blocked, ?_⟩
  intro sched s h r hr
  cases sched with
  | nil =>
    simp [exec] at h
    subst h
    simp [NewIndexer] at hr
  | cons a as =>
    rw [exec] at h
    cases h1 : step (NewIndexer noWorkers) a with
    | none => simp [h1] at h
    | some s1 =>
      simp only [h1] at h
      have hs1 : s1 = blocked := by
        cases a <;> simp [step, NewIndexer, noWorkers] at h1
        rw [← h1]
        rfl
      subst hs1
      cases as with
      | nil =>
        simp [exec] at h
        subst h
        simp [blocked] at hr
      | cons b bs =>
        rw [exec, halted_blocked b] at h
        simp at h

/-- Claim C3, amended: for an indexer with at least one worker goroutine, in
every run, whatever the `IndexSample` calls returned: when `Run` is at its
`range` and the channel of the source is exhausted, its next statement
returns exactly `Source.Err()`; whenever `Run` has returned `r`, `r` is
`Source.Err()` (`nil` on graceful closure) and the channel is exhausted; no
statement of any goroutine changes the value returned; a run in which no
goroutine can move any more has returned `Source.Err()`; and every run can be
continued to that return. -/
theorem Run_returns_source_err (config : Config) (sched : List Action) (s : State)
    (hw : 0 < config.NumIndexGoroutines)
    (h : exec (NewIndexer config) sched = some s) :
    (s.run = .range → s.ch = [] →
      step s .next = some { s with run := .returned config.Source.Err }) ∧
    (∀ r, s.run = .returned r → r = config.Source.Err ∧ s.ch = []) ∧
    (∀ r a s', s.run = .returned r → step s a = some s' → s'.run = .returned r) ∧
    (Halted s → s.run = .returned config.Source.Err) ∧
    (∃ sched' s', exec s sched' = some s' ∧ s'.run = .returned config.Source.Err) := by
  have hinv := ix_inv_exec sched (ix_inv_init config) h
  have hlen : 0 < s.workers.length := by
    rw [workers_length_exec sched h]
    simp [NewIndexer]
    omega
  refine ⟨?_, hinv.returned, fun r a s' hr hs => run_stable hr hs,
    fun hh => (allGroupsIndexed_of_halted hinv hlen hh).2, ?_⟩
  · intro hr hc
    simp [step, hinv.notPanicked, hr, hc, hinv.srcErr]
  · obtain ⟨sched', s', h1, h2⟩ := ix_exists_halted s.budget s (Nat.le_refl _)
    have hlen' : 0 < s'.workers.length := by rw [workers_length_exec sched' h1]; exact hlen
    exact ⟨sched', s', h1, (allGroupsIndexed_of_halted (ix_inv_exec sched' hinv h1) hlen' h2).2⟩

/-- Witness for the amended claim C3: a source that ends with the error
"eof" and an `IndexSample` call that fails with "disk full". -/
theorem Run_returns_source_err_witness :
    ∃ s, exec (NewIndexer endsWithErr) scheduleErr = some s ∧
      failedItems s = [⟨10, 0⟩] ∧ s.run = .returned (some "eof") ∧
      ((some "eof" : Option Err) = endsWithErr.Source.Err ∧ s.ch = []) :=
  ⟨_, rfl, by decide, by decide,
    (Run_returns_source_err endsWithErr scheduleErr _ (by decide) rfl).2.1 (some "eof") rfl⟩

theorem length_filter_split (l : List (workPayload × Option Err)) (g : Nat) :
    (((l.filter (fun c => c.2.isSome)).map Prod.fst).filter (fun w => w.wg = g)).length
      + (((l.filter (fun c => c.2.isNone)).map Prod.fst).filter (fun w => w.wg = g)).length
      = ((l.map Prod.fst).filter (fun w => w.wg = g)).length := by
  induction l with
  | nil => rfl
  | cons c l ih =>
    obtain ⟨w, e⟩ := c
    cases e with
    | none =>
      by_cases hg : w.wg = g
      · simp [List.filter_cons, hg] at ih ⊢; omega
      · simp [List.filter_cons, hg] at ih ⊢; omega
    | some e =>
      by_cases hg : w.wg = g
      · simp [List.filter_cons, hg] at ih ⊢; omega
      · simp [List.filter_cons, hg] at ih ⊢; omega

/-- Claim C8: in every run of the indexer, once all items of a group have
been handled (`GroupHandled`): the increments of the error counter
"index_sample" caused by the group are exactly one per sample of the group
whose `IndexSample` call returned an error (as lists of items up to order, so
in number too); the "index_sample" durations observed for the group are
exactly one per sample whose call returned `nil`; `IndexSample` was called
exactly once per sample of the group, failed or not (no retry, no requeue),
so failed and succeeded calls add up to the size of the group; and when every
worker is back at its `range` the error counter "index_sample" equals the
number of `IndexSample` calls that returned an error. -/
theorem errors_counted_per_group (config : Config) (sched : List Action) (s : State) (g : Nat)
    (h : exec (NewIndexer config) sched = some s) (hg : GroupHandled s g) :
    List.Perm ((erroredItems "index_sample" s).filter (fun w => w.wg = g))
      ((failedItems s).filter (fun w => w.wg = g)) ∧
    ((erroredItems "index_sample" s).filter (fun w => w.wg = g)).length
      = ((failedItems s).filter (fun w => w.wg = g)).length ∧
    List.Perm ((observedItems "index_sample" s).filter (fun w => w.wg = g))
      ((succeededItems s).filter (fun w => w.wg = g)) ∧
    List.Perm (((calledItems s).filter (fun w => w.wg = g)).map workPayload.s)
      (groupOf config.Source.Chan g) ∧
    ((failedItems s).filter (fun w => w.wg = g)).length
      + ((succeededItems s).filter (fun w => w.wg = g)).length
      = (groupOf config.Source.Chan g).length ∧
    ((∀ pc ∈ s.workers, pc = .recv) →
      errorCounter "index_sample" s = (failedItems s).length) := by
  have hinv := ix_inv_exec sched (ix_inv_init config) h
  obtain ⟨hlt, hun, hno⟩ := hg
  have hzero : ∀ f : WorkerPc → Nat, (∀ pc, pc.holds ≠ some g → f pc = 0) →
      wsum f s.workers = 0 :=
    fun f hf => wsum_eq_zero f _ (fun pc hpc => hf pc (hno pc hpc))
  have hpend : wsum (pendingOn g) s.workers = 0 := by
    apply hzero
    intro pc hpc
    cases pc with
    | index w =>
      simp only [pendingOn]
      rw [if_neg]
      intro hc; apply hpc; simp [WorkerPc.holds, hc]
    | wgDone w e =>
      simp only [pendingOn]
      rw [if_neg]
      intro hc; apply hpc; simp [WorkerPc.holds, hc]
    | _ => rfl
  have hcnt : s.wgs.getD g 0 = 0 := by
    rw [hinv.counter g, hpend, hun]
    rfl
  have hperm := perm_of_counts (fun x => calls_of_counter_zero hinv hlt hcnt x)
  have herr : List.Perm ((erroredItems "index_sample" s).filter (fun w => w.wg = g))
      ((failedItems s).filter (fun w => w.wg = g)) := by
    rw [List.perm_iff_count]
    intro w
    rw [count_filter_wg, count_filter_wg]
    split
    · rename_i hw
      have h1 := hinv.errors w
      have h2 : wsum (errPending w) s.workers = 0 := by
        apply hzero
        intro pc hpc
        cases pc with
        | wgDone w' e =>
          cases e with
          | none => rfl
          | some e =>
            simp only [errPending]
            rw [if_neg]
            intro hc; apply hpc; simp [WorkerPc.holds, hc, hw]
        | record w' e =>
          cases e with
          | none => rfl
          | some e =>
            simp only [errPending]
            rw [if_neg]
            intro hc; apply hpc; simp [WorkerPc.holds, hc, hw]
        | _ => rfl
      omega
    · rfl
  have hok : List.Perm ((observedItems "index_sample" s).filter (fun w => w.wg = g))
      ((succeededItems s).filter (fun w => w.wg = g)) := by
    rw [List.perm_iff_count]
    intro w
    rw [count_filter_wg, count_filter_wg]
    split
    · rename_i hw
      have h1 := hinv.durations w
      have h2 : wsum (okPending w) s.workers = 0 := by
        apply hzero
        intro pc hpc
        cases pc with
        | wgDone w' e =>
          cases e with
          | some e => rfl
          | none =>
            simp only [okPending]
            rw [if_neg]
            intro hc; apply hpc; simp [WorkerPc.holds, hc, hw]
        | record w' e =>
          cases e with
          | some e => rfl
          | none =>
            simp only [okPending]
            rw [if_neg]
            intro hc; apply hpc; simp [WorkerPc.holds, hc, hw]
        | _ => rfl
      omega
    · rfl
  refine ⟨herr, herr.length_eq, hok, hperm, ?_, ?_⟩
  · have h1 := length_filter_split s.calls g
    have h2 := hperm.length_eq
    rw [List.length_map] at h2
    simp only [failedItems, succeededItems]
    simp only [calledItems] at h2
    omega
  · intro hidle
    have hp : List.Perm (erroredItems "index_sample" s) (failedItems s) := by
      rw [List.perm_iff_count]
      intro w
      have h1 := hinv.errors w
      have h2 : wsum (errPending w) s.workers = 0 :=
        wsum_eq_zero _ _ (fun pc hpc => by rw [hidle pc hpc]; rfl)
      omega
    rw [← hp.length_eq]
    simp [errorCounter, erroredItems]

/-- Witness for claim C8: scenario A of the specification;
the sink is invoked three times, the error counter "index_sample" is 1. -/
theorem errors_counted_per_group_witness :
    ∃ s, exec (NewIndexer scenarioA) scheduleA = some s ∧ GroupHandled s 0 ∧
      s.calls.length = 3 ∧ errorCounter "index_sample" s = 1 ∧
      List.Perm ((erroredItems "index_sample" s).filter (fun w => w.wg = 0))
        ((failedItems s).filter (fun w => w.wg = 0)) :=
  ⟨_, rfl, ⟨by decide, by decide, by decide⟩, by decide, by decide,
    (errors_counted_per_group scenarioA scheduleA _ 0 rfl
      ⟨by decide, by decide, by decide⟩).1⟩

end indexer

end Vulcan
